import Mathlib

/-!
Verification of the bookmark/tag store (src/src/lib/storage.ts) and the
import-path tag-conflict classifier (src/src/lib/import.ts).

The TypeScript code is shallowly embedded: JavaScript objects keyed by
strings become association lists (`List (String × Tag)`) with JS-object
semantics (assignment to a present key updates in place, assignment to an
absent key appends, `delete` removes the key); `new Date().toISOString()`
and `generateId()` become explicit `now` / id-generator parameters;
`throw` becomes `Except.error`; the float comparison
`calculateSimilarity(...) > 0.8` is modelled exactly over `Rat`
(numerator and denominator are small integers, so the double comparison
agrees with the exact rational one).
-/

/-- JS `String.prototype.toLowerCase`, computed character-wise so the kernel
can evaluate it (Lean's `String.toLower` is byte-position recursion and does
not reduce). Lower-cases ASCII letters; the tags appearing in this
development are ASCII or CJK, where the JS and Lean functions agree. -/
def jsToLower (s : String) : String :=
  ⟨s.data.map Char.toLower⟩

/-- JS `String.prototype.trim`: strip leading and trailing whitespace. -/
def jsTrim (s : String) : String :=
  ⟨((s.data.dropWhile Char.isWhitespace).reverse.dropWhile
      Char.isWhitespace).reverse⟩

/-- Mirrors `normalizeTag` in src/src/lib/import.ts: `tag.toLowerCase().trim()`. -/
def normalizeTag (tag : String) : String :=
  jsTrim (jsToLower tag)

/-- Mirrors the `Tag` interface in src/types. `count` is an `Int` because the
code decrements it before testing `<= 0`. -/
structure Tag where
  id : String
  name : String
  count : Int
  color : Option String := none
  createdAt : String
  order : Option Int := none
deriving DecidableEq

/-- Mirrors the `Bookmark` interface in src/types. Optional fields are
`Option`; the optional `deleted` flag is a `Bool` (absent = `false`,
matching JS truthiness). -/
structure Bookmark where
  id : String
  url : String
  title : String
  note : String
  tags : List String
  createdAt : String
  updatedAt : Option String := none
  deleted : Bool := false
  deletedAt : Option String := none
  favicon : Option String := none
deriving DecidableEq

/-- Mirrors the `settings` object of `StorageData`. -/
structure Settings where
  version : String
  theme : String
  dashboardCollapsed : Bool
deriving DecidableEq

/-- The settings value the code writes on initialization and clear. -/
def defaultSettings : Settings :=
  { version := "1.0.0", theme := "auto", dashboardCollapsed := false }

/-- Mirrors `StorageData`: the persisted Document. `tags` is a JS object
keyed by normalized tag name, embedded as an insertion-ordered association
list; `deletedDefaultTags` is the optional suppression ledger. -/
structure StorageData where
  bookmarks : List Bookmark
  tags : List (String × Tag)
  deletedDefaultTags : Option (List String) := none
  settings : Settings
deriving DecidableEq

/-- JS object read `m[k]`: first (unique) binding of the key. -/
def tagLookup (m : List (String × Tag)) (k : String) : Option Tag :=
  (m.find? (fun p => p.1 == k)).map (·.2)

/-- JS in-place field mutation `m[k] = f(m[k])` for a present key: the
binding is updated where it stands. -/
def tagModify (m : List (String × Tag)) (k : String) (f : Tag → Tag) :
    List (String × Tag) :=
  m.map (fun p => if p.1 == k then (p.1, f p.2) else p)

/-- JS `delete m[k]`. -/
def tagErase (m : List (String × Tag)) (k : String) : List (String × Tag) :=
  m.filter (fun p => !(p.1 == k))

/-- Mirrors `DEFAULT_TAGS` in src/src/lib/import.ts (utils section). -/
def DEFAULT_TAGS : List String :=
  ["工作", "学习", "技术", "生活", "娱乐", "购物", "旅行", "美食",
   "新闻", "工具", "设计", "开发", "文档", "资源", "教程"]

/-! ## Tag conflict classifier (src/src/lib/import.ts) -/

/-- Mirrors the `TagConflict` interface; `type` and `action` are the string
literals the code uses. -/
structure TagConflict where
  importTag : String
  existingTags : List String
  type : String
  action : String
  suggestedName : Option String := none
deriving DecidableEq

/-- Mirrors `BookmarkImporter.levenshteinDistance`: the row-by-row dynamic
program `matrix[j][i]` over `str1` (columns) and `str2` (rows). `levRowAux`
computes the entries `1..len1` of row `j` from row `j-1` (`p0 :: ps`, where
`p0 = matrix[j-1][i-1]`) and the entry to the left (`left`). -/
def levRowAux (c2 : Char) : List Char → Nat → List Nat → List Nat
  | [], _, _ => []
  | c1 :: cs, left, p0 :: p1 :: ps =>
      let v := min (left + 1) (min (p1 + 1) (p0 + (if c1 == c2 then 0 else 1)))
      v :: levRowAux c2 cs v (p1 :: ps)
  | _ :: _, _, _ => []

def levenshteinDistance (str1 str2 : String) : Nat :=
  let s1 := str1.data
  let row0 := List.range (s1.length + 1)
  let lastRow := str2.data.foldl
    (fun prev c2 =>
      match prev with
      | [] => []
      | p0 :: _ => (p0 + 1) :: levRowAux c2 s1 (p0 + 1) prev)
    row0
  lastRow.getLastD 0

/-- Mirrors `BookmarkImporter.calculateSimilarity`, computed exactly over
`Rat` (the JS doubles here are quotients of small integers; comparison with
the literal `0.8` agrees with the exact rational comparison). -/
def calculateSimilarity (str1 str2 : String) : Rat :=
  let longer := if str1.length > str2.length then str1 else str2
  let shorter := if str1.length > str2.length then str2 else str1
  if longer.length = 0 then 1
  else ((longer.length : Rat) - (levenshteinDistance longer shorter : Rat)) /
        (longer.length : Rat)

/-- The comparison `calculateSimilarity(str1, str2) > 0.8` as an executable
integer test (rational arithmetic does not reduce in the kernel);
`similarityGt08_iff` below proves it equal to the rational comparison. -/
def similarityGt08 (str1 str2 : String) : Bool :=
  let longer := if str1.length > str2.length then str1 else str2
  let shorter := if str1.length > str2.length then str2 else str1
  if longer.length = 0 then true
  else decide (4 * (longer.length : Int) <
    5 * ((longer.length : Int) - (levenshteinDistance longer shorter : Int)))

theorem similarityGt08_iff (str1 str2 : String) :
    similarityGt08 str1 str2 = true ↔
      calculateSimilarity str1 str2 > (0.8 : Rat) := by
  unfold similarityGt08 calculateSimilarity
  dsimp only
  by_cases h0 : (if str1.length > str2.length then str1 else str2).length = 0
  · simp only [h0, if_pos rfl, if_true]
    norm_num
  · rw [if_neg h0, if_neg h0]
    set L := (if str1.length > str2.length then str1 else str2).length with hL
    set dd := levenshteinDistance (if str1.length > str2.length then str1 else str2)
      (if str1.length > str2.length then str2 else str1) with hdd
    have hLpos : (0 : Rat) < (L : Rat) := by
      exact_mod_cast Nat.pos_of_ne_zero h0
    rw [decide_eq_true_iff, gt_iff_lt, lt_div_iff₀ hLpos,
      show (0.8 : Rat) = 4 / 5 by norm_num, div_mul_eq_mul_div,
      div_lt_iff₀ (by norm_num : (0 : Rat) < 5)]
    have hcast : ((L : Rat) - (dd : Rat)) * 5 =
        ((5 * ((L : Int) - (dd : Int)) : Int) : Rat) := by
      push_cast; ring
    have hcast2 : (4 : Rat) * (L : Rat) = ((4 * (L : Int) : Int) : Rat) := by
      push_cast; ring
    rw [hcast, hcast2, Int.cast_lt]

/-- Mirrors `BookmarkImporter.analyzeTagConflict`: exact match, then case
variant, then similarity above 0.8 (`similarityGt08`), then new. -/
def analyzeTagConflict (importTag : String) (existingTags : List String) :
    TagConflict :=
  if existingTags.contains importTag then
    { importTag := importTag, existingTags := [importTag],
      type := "exact", action := "merge" }
  else
    match existingTags.find? (fun tag => jsToLower tag == jsToLower importTag) with
    | some caseMatch =>
      { importTag := importTag, existingTags := [caseMatch],
        type := "case", action := "merge", suggestedName := some caseMatch }
    | none =>
      let similarTags := existingTags.filter
        (fun tag => similarityGt08 importTag tag)
      match similarTags with
      | t :: _ =>
        { importTag := importTag, existingTags := similarTags,
          type := "similar", action := "merge", suggestedName := some t }
      | [] =>
        { importTag := importTag, existingTags := [],
          type := "new", action := "keep" }

/-- Evaluation helper for `calculateSimilarity` at concrete inputs. -/
theorem calculateSimilarity_eval (str1 str2 : String) (L d : Nat)
    (hL : (if str1.length > str2.length then str1 else str2).length = L)
    (hd : levenshteinDistance (if str1.length > str2.length then str1 else str2)
      (if str1.length > str2.length then str2 else str1) = d)
    (h0 : L ≠ 0) :
    calculateSimilarity str1 str2 = ((L : Rat) - (d : Rat)) / (L : Rat) := by
  unfold calculateSimilarity
  dsimp only
  rw [hL, hd, if_neg h0]

example : levenshteinDistance "news-letter" "newslettr" = 2 := by decide
example : normalizeTag " Work " = "work" := by decide

/-! ## Store Manager operations (src/src/lib/storage.ts) -/

/-- The argument of `addBookmark`: `Omit<Bookmark, 'id' | 'createdAt'>`.
The optional `updatedAt`/`deleted`/`deletedAt` fields of `Bookmark` are
retained by the `Omit` and spread into the new record by `addBookmark`, so
a draft can carry them (a draft with the soft-delete flag set appends a
dead record). -/
structure Draft where
  url : String
  title : String
  note : String
  tags : List String
  updatedAt : Option String := none
  deleted : Bool := false
  deletedAt : Option String := none
  favicon : Option String := none
deriving DecidableEq

/-- The argument of `updateBookmark`: `Partial<Bookmark>`. A `none` field is
absent from the partial object and keeps the old value. -/
structure BookmarkUpdate where
  id : Option String := none
  url : Option String := none
  title : Option String := none
  note : Option String := none
  tags : Option (List String) := none
  createdAt : Option String := none
  deleted : Option Bool := none
  deletedAt : Option String := none
  favicon : Option String := none
deriving DecidableEq

/-- The body of the per-tag loop shared by `addBookmark` and the "new tags"
half of `updateBookmark`: create the tag at count 0 when its normalized key
is absent, then `count++`. The `Nat` component counts how many `generateId()`
calls have happened, so each created tag gets a fresh id from `gen`. -/
def addTagStep (now : String) (gen : Nat → String) :
    List (String × Tag) × Nat → String → List (String × Tag) × Nat
  | (m, n), tagName =>
    let k := normalizeTag tagName
    match tagLookup m k with
    | none =>
        (tagModify (m ++ [(k, { id := gen n, name := tagName, count := 0,
                                createdAt := now })])
          k (fun t => { t with count := t.count + 1 }), n + 1)
    | some _ =>
        (tagModify m k (fun t => { t with count := t.count + 1 }), n)

def addTagsFold (now : String) (gen : Nat → String) (tags : List String)
    (m : List (String × Tag)) (n : Nat) : List (String × Tag) × Nat :=
  tags.foldl (addTagStep now gen) (m, n)

/-- The per-tag loop shared by `deleteBookmark` and the "old tags" half of
`updateBookmark`: if the normalized key is present, `count--`, and delete
the entry when the new count is `<= 0`. -/
def decTagStep (m : List (String × Tag)) (tagName : String) :
    List (String × Tag) :=
  let k := normalizeTag tagName
  match tagLookup m k with
  | none => m
  | some tag =>
      let m1 := tagModify m k (fun t => { t with count := t.count - 1 })
      if tag.count - 1 ≤ 0 then tagErase m1 k else m1

def decTagsFold (tags : List String) (m : List (String × Tag)) :
    List (String × Tag) :=
  tags.foldl decTagStep m

/-- Mirrors `StorageManager.addBookmark` acting on a loaded Document:
spread the whole draft (its optional `updatedAt`/`deleted`/`deletedAt`
fields included) into a new record with a fresh id and creation timestamp,
append it, then run the tag loop. `bid` is the generated bookmark id,
`gen` supplies ids for implicitly created tags, `now` is
`new Date().toISOString()`. -/
def addBookmark (d : StorageData) (draft : Draft) (bid : String)
    (gen : Nat → String) (now : String) : StorageData × Bookmark :=
  let newB : Bookmark :=
    { id := bid, url := draft.url, title := draft.title, note := draft.note,
      tags := draft.tags, createdAt := now, updatedAt := draft.updatedAt,
      deleted := draft.deleted, deletedAt := draft.deletedAt,
      favicon := draft.favicon }
  let tags2 := (addTagsFold now gen draft.tags d.tags 0).1
  ({ d with bookmarks := d.bookmarks ++ [newB], tags := tags2 }, newB)

/-- `findIndex` followed by replacing the element at that index: returns the
old element and the updated list, or `none` when no element matches. -/
def replaceFirst (p : Bookmark → Bool) (f : Bookmark → Bookmark) :
    List Bookmark → Option (Bookmark × List Bookmark)
  | [] => none
  | b :: bs =>
      if p b then some (b, f b :: bs)
      else (replaceFirst p f bs).map (fun q => (q.1, b :: q.2))

/-- The object spread `{...oldBookmark, ...updates, updatedAt: now}`. -/
def mergeUpdate (old : Bookmark) (u : BookmarkUpdate) (now : String) :
    Bookmark :=
  { id := u.id.getD old.id, url := u.url.getD old.url,
    title := u.title.getD old.title, note := u.note.getD old.note,
    tags := u.tags.getD old.tags, createdAt := u.createdAt.getD old.createdAt,
    updatedAt := some now, deleted := u.deleted.getD old.deleted,
    deletedAt := (u.deletedAt).orElse (fun _ => old.deletedAt),
    favicon := (u.favicon).orElse (fun _ => old.favicon) }

/-- Mirrors `StorageManager.updateBookmark` on a loaded Document. Fails with
the code's `'Bookmark not found'` when no record (deleted or not) has the
id. When the partial update carries a `tags` field (any list, including the
empty one — `if (updates.tags)` is truthy for `[]`), the old list is
decremented and the new list incremented. -/
def updateBookmark (d : StorageData) (id : String) (u : BookmarkUpdate)
    (gen : Nat → String) (now : String) : Except String StorageData :=
  match replaceFirst (fun b => b.id == id) (fun b => mergeUpdate b u now)
      d.bookmarks with
  | none => Except.error "Bookmark not found"
  | some (old, bookmarks2) =>
      let tags2 := match u.tags with
        | some newTags =>
            (addTagsFold now gen newTags (decTagsFold old.tags d.tags) 0).1
        | none => d.tags
      Except.ok { d with bookmarks := bookmarks2, tags := tags2 }

/-- Mirrors `StorageManager.deleteBookmark` on a loaded Document: soft-delete
(set the flag and the deletion timestamp) and decrement the record's tag
counts. The deleted flag of the record is never inspected. -/
def deleteBookmark (d : StorageData) (id : String) (now : String) :
    Except String StorageData :=
  match replaceFirst (fun b => b.id == id)
      (fun b => { b with deleted := true, deletedAt := some now })
      d.bookmarks with
  | none => Except.error "Bookmark not found"
  | some (old, bookmarks2) =>
      Except.ok { d with bookmarks := bookmarks2,
                         tags := decTagsFold old.tags d.tags }

/-- The ledger idiom `if (!arr.includes(x)) arr.push(x)`. -/
def pushAbsent (l : List String) (x : String) : List String :=
  if l.contains x then l else l ++ [x]

/-- Mirrors `StorageManager.deleteTag` on a loaded Document: fails when the
normalized name has no entry; removes the entry; when the raw name is one of
`DEFAULT_TAGS`, appends raw and normalized name to the suppression ledger
(each only when not already present); strips the tag from every bookmark
whose tag list `includes(tagName)` (exact string match) and stamps those
bookmarks' `updatedAt`. -/
def deleteTag (d : StorageData) (tagName : String) (now : String) :
    Except String StorageData :=
  let k := normalizeTag tagName
  match tagLookup d.tags k with
  | none => Except.error "Tag not found"
  | some _ =>
      let tags2 := tagErase d.tags k
      let ledger0 := d.deletedDefaultTags.getD []
      let ledger2 :=
        if DEFAULT_TAGS.contains tagName then
          pushAbsent (pushAbsent ledger0 tagName) k
        else ledger0
      let bookmarks2 := d.bookmarks.map (fun b =>
        if b.tags.contains tagName then
          { b with tags := b.tags.filter (fun t => !(t == tagName)),
                   updatedAt := some now }
        else b)
      Except.ok { d with tags := tags2, deletedDefaultTags := some ledger2,
                         bookmarks := bookmarks2 }

/-! ## Operation sequences and the tag-count invariant (claim C1) -/

/-- One Store Manager mutating call, with its nondeterministic inputs
(generated ids and timestamps) made explicit. -/
inductive Op where
  | add (draft : Draft) (bid : String) (gen : Nat → String) (now : String)
  | upd (id : String) (u : BookmarkUpdate) (gen : Nat → String) (now : String)
  | del (id : String) (now : String)

/-- Apply one operation; a thrown `NotFound` leaves the Document unchanged
(the code throws before mutating anything). -/
def applyOp (d : StorageData) : Op → StorageData
  | .add draft bid gen now => (addBookmark d draft bid gen now).1
  | .upd id u gen now =>
      match updateBookmark d id u gen now with
      | .ok d2 => d2
      | .error _ => d
  | .del id now =>
      match deleteBookmark d id now with
      | .ok d2 => d2
      | .error _ => d

def applyOps (d : StorageData) (ops : List Op) : StorageData :=
  ops.foldl applyOp d

/-- Boolean pairwise-distinctness of a list of strings. -/
def distinctB : List String → Bool
  | [] => true
  | x :: xs => !(xs.contains x) && distinctB xs

/-- The side conditions under which the incremental count maintenance is
sound (see claim C1's correction): drafts do not carry the soft-delete flag
(the draft is spread, so a dead draft would still bump its tag counts),
drafts and tag-list updates normalize to pairwise-distinct keys,
`updateBookmark` never smuggles in the soft-delete flag and only touches
live records, and `deleteBookmark` only targets live records. -/
def safeOpB (d : StorageData) : Op → Bool
  | .add draft _ _ _ =>
      !draft.deleted && distinctB (draft.tags.map normalizeTag)
  | .upd id u _ _ =>
      match d.bookmarks.find? (fun b => b.id == id) with
      | some b =>
          !b.deleted && !(u.deleted == some true) &&
          (match u.tags with
           | some ts => distinctB (ts.map normalizeTag)
           | none => true)
      | none => true
  | .del id _ =>
      match d.bookmarks.find? (fun b => b.id == id) with
      | some b => !b.deleted
      | none => true

def safeSeqB (d : StorageData) : List Op → Bool
  | [] => true
  | op :: ops => safeOpB d op && safeSeqB (applyOp d op) ops

/-- The normalized tag keys of a bookmark. -/
def normKeys (b : Bookmark) : List String :=
  b.tags.map normalizeTag

/-- Number of live (non-soft-deleted) bookmarks among `bs` whose normalized
tag list contains `k`. -/
def liveCountL (bs : List Bookmark) (k : String) : Nat :=
  (bs.filter (fun b => !b.deleted && (normKeys b).contains k)).length

def liveCount (d : StorageData) (k : String) : Nat :=
  liveCountL d.bookmarks k

/-- The invariant of the claim: every entry of the tag index counts exactly
the live bookmarks whose normalized tag list contains its key. -/
abbrev tagCountOk (d : StorageData) : Prop :=
  ∀ p ∈ d.tags, p.2.count = (liveCount d p.1 : Int)

/-- Every tag of a live bookmark has an entry in the index. -/
abbrev tagComplete (d : StorageData) : Prop :=
  ∀ b ∈ d.bookmarks, b.deleted = false →
    ∀ t ∈ b.tags, (tagLookup d.tags (normalizeTag t)).isSome = true

/-- The index has no duplicate keys (automatic for a JS object). -/
abbrev keysNodup (d : StorageData) : Prop :=
  (d.tags.map Prod.fst).Nodup

/-- Live bookmarks' tag lists normalize to pairwise-distinct keys (the
spec's Bookmark invariant). -/
abbrev liveTagsNodup (d : StorageData) : Prop :=
  ∀ b ∈ d.bookmarks, b.deleted = false → (normKeys b).Nodup

/-- Well-formedness of a Document, as the spec's §3 invariants. -/
abbrev WF (d : StorageData) : Prop :=
  tagCountOk d ∧ tagComplete d ∧ keysNodup d ∧ liveTagsNodup d

/-! ## The persisted raw value, `getData` and `initializeStorage` -/

/-- The dynamic shape of the persisted `bookmarks` field: an array, an
object map (legacy shape, coerced with `Object.values`), or some other
truthy non-object value (coerced to `[]`). A falsy/absent field is `none`
at the `RawData` level. -/
inductive RawBookmarks where
  | arr (l : List Bookmark)
  | objmap (m : List (String × Bookmark))
  | prim
deriving DecidableEq

/-- The dynamic shape of the persisted `tags` field: an object, or a truthy
non-object value (coerced to `{}`). -/
inductive RawTags where
  | obj (m : List (String × Tag))
  | prim
deriving DecidableEq

/-- The persisted key-value area contents (`storage.get(null)`): each
top-level field may be absent/falsy (`none`). -/
structure RawData where
  bookmarks : Option RawBookmarks := none
  tags : Option RawTags := none
  settings : Option Settings := none
  deletedDefaultTags : Option (List String) := none
deriving DecidableEq

/-- The completeness test `data && data.bookmarks && data.tags &&
data.settings` used by both `getData` and `initializeStorage`. -/
def rawComplete (r : RawData) : Bool :=
  r.bookmarks.isSome && r.tags.isSome && r.settings.isSome

/-- Bookmarks coercion of the repair pass; the `Bool` is the `needsUpdate`
contribution. -/
def coerceBookmarks : RawBookmarks → List Bookmark × Bool
  | .arr l => (l, false)
  | .objmap m => (m.map (·.2), true)
  | .prim => ([], true)

/-- Tags coercion of the repair pass. -/
def coerceTags : RawTags → List (String × Tag) × Bool
  | .obj m => (m, false)
  | .prim => ([], true)

/-- `storage.set(doc)` for a full Document: every field carried by the
Document overwrites the persisted one; a Document without a
`deletedDefaultTags` field leaves the persisted value of that key alone. -/
def writeBack (r : RawData) (d : StorageData) : RawData :=
  { bookmarks := some (.arr d.bookmarks), tags := some (.obj d.tags),
    settings := some d.settings,
    deletedDefaultTags :=
      match d.deletedDefaultTags with
      | some l => some l
      | none => r.deletedDefaultTags }

/-- Seeding of starter tags during first initialization: every
`DEFAULT_TAGS` name not recorded in the suppression ledger (raw or
normalized form) gets a fresh zero-count tag. -/
def seedDefaultTags (ledger : List String) (gen : Nat → String)
    (now : String) : List (String × Tag) :=
  (DEFAULT_TAGS.foldl
    (fun (acc : List (String × Tag) × Nat) tagName =>
      let k := normalizeTag tagName
      if ledger.contains tagName || ledger.contains k then acc
      else (acc.1 ++ [(k, { id := gen acc.2, name := tagName, count := 0,
                            createdAt := now })], acc.2 + 1))
    ([], 0)).1

/-- The "add missing default tags" pass of `initializeStorage`'s repair
branch: skip names in the ledger, append a zero-count tag for absent keys.
Returns the tag map, the id counter, and the `needsUpdate` flag. -/
def addMissingDefaults (ledger : List String) (gen : Nat → String)
    (now : String) (m : List (String × Tag)) :
    List (String × Tag) × Bool :=
  let r := DEFAULT_TAGS.foldl
    (fun (acc : List (String × Tag) × Nat × Bool) tagName =>
      let k := normalizeTag tagName
      if ledger.contains tagName || ledger.contains k then acc
      else match tagLookup acc.1 k with
        | some _ => acc
        | none => (acc.1 ++ [(k, { id := gen acc.2.1, name := tagName,
                                   count := 0, createdAt := now })],
                   acc.2.1 + 1, true))
    (m, 0, false)
  (r.1, r.2.2)

/-- The raw-name frequency map of the repair recount: iterate every
bookmark's tag list (deleted ones included — the code does not filter) and
count each raw tag string that has an entry under its normalized key. -/
def recountFreq (bs : List Bookmark) (m : List (String × Tag)) :
    List (String × Nat) :=
  bs.foldl
    (fun freq b =>
      b.tags.foldl
        (fun freq t =>
          if (tagLookup m (normalizeTag t)).isSome then
            match freq.find? (fun p => p.1 == t) with
            | some _ => freq.map (fun p => if p.1 == t then (p.1, p.2 + 1)
                                           else p)
            | none => freq ++ [(t, 1)]
          else freq)
        freq)
    []

/-- Set every tag's count to the frequency of its display name (`0` when
absent); the flag records whether any count changed. -/
def applyRecount (freq : List (String × Nat)) (m : List (String × Tag)) :
    List (String × Tag) × Bool :=
  (m.map (fun p =>
      (p.1, { p.2 with count :=
        (((freq.find? (fun q => q.1 == p.2.name)).map (·.2)).getD 0 : Int) })),
   m.any (fun p =>
      p.2.count ≠ (((freq.find? (fun q => q.1 == p.2.name)).map (·.2)).getD 0 : Int)))

/-- Purge tags whose recomputed count is exactly `0`; the flag records
whether anything was purged. -/
def purgeZero (m : List (String × Tag)) : List (String × Tag) × Bool :=
  (m.filter (fun p => !(p.2.count == 0)), m.any (fun p => p.2.count == 0))

/-- Mirrors `StorageManager.initializeStorage` on a non-failing backend.
Returns the cached Document, the backend after any write, and the number of
`storage.set` calls. The first branch (structurally incomplete data)
rebuilds starter tags minus the suppression ledger; the second branch is
the repair pass: coerce shapes, ensure the ledger field, add missing
starter tags, recount, purge zero-count tags, and write once if anything
changed. -/
def initializeStorage (raw : RawData) (gen : Nat → String) (now : String) :
    StorageData × RawData × Nat :=
  if rawComplete raw = false then
    let ledger0 := raw.deletedDefaultTags.getD []
    let d : StorageData :=
      { bookmarks := [], tags := seedDefaultTags ledger0 gen now,
        deletedDefaultTags := some ledger0, settings := defaultSettings }
    (d, writeBack raw d, 1)
  else
    let cb := coerceBookmarks (raw.bookmarks.getD (.arr []))
    let ct := coerceTags (raw.tags.getD (.obj []))
    let ledger0 := raw.deletedDefaultTags.getD []
    let md := addMissingDefaults ledger0 gen now ct.1
    let rc := applyRecount (recountFreq cb.1 md.1) md.1
    let pz := purgeZero rc.1
    let d : StorageData :=
      { bookmarks := cb.1, tags := pz.1, deletedDefaultTags := some ledger0,
        settings := raw.settings.getD defaultSettings }
    if cb.2 || ct.2 || md.2 || rc.2 || pz.2 then (d, writeBack raw d, 1)
    else (d, raw, 0)

/-- The Store Manager's mutable state: the backend contents and the
in-memory cache. -/
structure MState where
  backend : RawData
  cache : Option StorageData
deriving DecidableEq

/-- Mirrors `StorageManager.getData` on a non-failing backend: cache hit
returns the cache; otherwise load, run `initializeStorage` when the shape is
incomplete, else coerce `bookmarks`/`tags` and persist once when a coercion
fired. Returns the Document, the new manager state, and the number of
`storage.set` calls. -/
def mGetData (s : MState) (gen : Nat → String) (now : String) :
    StorageData × MState × Nat :=
  match s.cache with
  | some d => (d, s, 0)
  | none =>
      let raw := s.backend
      if rawComplete raw = false then
        let r := initializeStorage raw gen now
        (r.1, { backend := r.2.1, cache := some r.1 }, r.2.2)
      else
        let cb := coerceBookmarks (raw.bookmarks.getD (.arr []))
        let ct := coerceTags (raw.tags.getD (.obj []))
        let d : StorageData :=
          { bookmarks := cb.1, tags := ct.1,
            deletedDefaultTags := raw.deletedDefaultTags,
            settings := raw.settings.getD defaultSettings }
        if cb.2 || ct.2 then
          (d, { backend := writeBack raw d, cache := some d }, 1)
        else (d, { backend := raw, cache := some d }, 0)

/-- Mirrors `StorageManager.updateBookmark` at the manager level: load via
`getData`, then run the update; a throw leaves the post-`getData` state; a
success persists the new Document and caches it. -/
def mUpdateBookmark (s : MState) (id : String) (u : BookmarkUpdate)
    (gen : Nat → String) (now : String) :
    Except String Unit × MState :=
  let r := mGetData s gen now
  match updateBookmark r.1 id u gen now with
  | .error e => (.error e, r.2.1)
  | .ok d2 => (.ok (), { backend := writeBack r.2.1.backend d2,
                         cache := some d2 })

/-! ## The `getBookmarks` body (claim C10) -/

/-- The dynamic value of `data.bookmarks` as `getBookmarks` may see it: an
array whose entries can be `null`, an object map, or a non-object value.
(The storage-change listener caches the raw value without any coercion, so
the body's own `Array.isArray` check is live.) -/
inductive BookVal where
  | arr (entries : List (Option Bookmark))
  | objmap (m : List (String × Option Bookmark))
  | prim
deriving DecidableEq

/-- The body of `StorageManager.getBookmarks` (lines 370-380): return `[]`
when `bookmarks` is not an array, else
`bookmarks.filter(b => b && !b.deleted)`. -/
def getBookmarksBody : BookVal → List Bookmark
  | .arr entries =>
      entries.filterMap (fun e =>
        match e with
        | some b => if b.deleted then none else some b
        | none => none)
  | .objmap _ => []
  | .prim => []

/-! ## Lemmas about `getData` -/

theorem initializeStorage_writes_le (raw : RawData) (gen : Nat → String)
    (now : String) : (initializeStorage raw gen now).2.2 ≤ 1 := by
  unfold initializeStorage
  split
  · exact le_refl 1
  · dsimp only
    split <;> simp

theorem mGetData_cache_eq (s : MState) (gen : Nat → String) (now : String) :
    (mGetData s gen now).2.1.cache = some (mGetData s gen now).1 := by
  unfold mGetData
  match hc : s.cache with
  | some d => simp [hc]
  | none =>
      simp only [hc]
      split
      · rfl
      · split <;> rfl

theorem mGetData_writes_le (s : MState) (gen : Nat → String) (now : String) :
    (mGetData s gen now).2.2 ≤ 1 := by
  unfold mGetData
  match hc : s.cache with
  | some d => simp [hc]
  | none =>
      simp only [hc]
      split
      · exact initializeStorage_writes_le s.backend gen now
      · split <;> simp

theorem mGetData_cache_hit (s : MState) (d : StorageData)
    (gen : Nat → String) (now : String) (h : s.cache = some d) :
    mGetData s gen now = (d, s, 0) := by
  unfold mGetData
  rw [h]

/-- Claim C3: calling `getData()` twice in a row with no intervening
mutation or cache invalidation returns identical Documents and identical
manager states, the two calls together perform at most one persisted write
(the repair/initialization write, by the first call), and the second call
performs no write. -/
theorem getData_idempotent (s : MState) (gen gen2 : Nat → String)
    (now now2 : String) :
    (mGetData (mGetData s gen now).2.1 gen2 now2).1 = (mGetData s gen now).1 ∧
    (mGetData (mGetData s gen now).2.1 gen2 now2).2.1 =
      (mGetData s gen now).2.1 ∧
    (mGetData s gen now).2.2 +
      (mGetData (mGetData s gen now).2.1 gen2 now2).2.2 ≤ 1 ∧
    (mGetData (mGetData s gen now).2.1 gen2 now2).2.2 = 0 := by
  have h2 := mGetData_cache_hit (mGetData s gen now).2.1 (mGetData s gen now).1
    gen2 now2 (mGetData_cache_eq s gen now)
  refine ⟨by rw [h2], by rw [h2], ?_, by rw [h2]⟩
  rw [h2]
  simpa using mGetData_writes_le s gen now

/-- Claim C5: with existing tags `["News", "news-letter"]`, the classifier
labels `"NEWS"` a case variant merging onto `"News"`, labels `"newslettr"`
similar to `"news-letter"` (similarity 9/11 > 0.8) with merge suggestion
`"news-letter"`, and labels `"Sports"` new with action keep. -/
theorem classifier_scenario :
    analyzeTagConflict "NEWS" ["News", "news-letter"] =
      { importTag := "NEWS", existingTags := ["News"], type := "case",
        action := "merge", suggestedName := some "News" } ∧
    analyzeTagConflict "newslettr" ["News", "news-letter"] =
      { importTag := "newslettr", existingTags := ["news-letter"],
        type := "similar", action := "merge",
        suggestedName := some "news-letter" } ∧
    calculateSimilarity "newslettr" "news-letter" > (0.8 : Rat) ∧
    analyzeTagConflict "Sports" ["News", "news-letter"] =
      { importTag := "Sports", existingTags := [], type := "new",
        action := "keep", suggestedName := none } := by
  refine ⟨by decide, by decide,
    (similarityGt08_iff "newslettr" "news-letter").mp (by decide), by decide⟩

/-- Claim C4, counterexample: with existing tags
`["abcdefghix", "abcdefghijx"]` and incoming `"abcdefghij"`, both existing
tags have similarity above 0.8 (9/10 and 10/11), the second is strictly
more similar, yet the classifier suggests merging onto the first — the
suggested target is not the most similar match. -/
theorem classifier_not_best_match :
    (analyzeTagConflict "abcdefghij" ["abcdefghix", "abcdefghijx"]).type =
      "similar" ∧
    (analyzeTagConflict "abcdefghij"
        ["abcdefghix", "abcdefghijx"]).suggestedName = some "abcdefghix" ∧
    calculateSimilarity "abcdefghij" "abcdefghix" > (0.8 : Rat) ∧
    calculateSimilarity "abcdefghij" "abcdefghijx" >
      calculateSimilarity "abcdefghij" "abcdefghix" := by
  have e1 : calculateSimilarity "abcdefghij" "abcdefghix" =
      ((10 : Rat) - (1 : Rat)) / (10 : Rat) :=
    calculateSimilarity_eval _ _ 10 1 (by decide) (by decide) (by decide)
  have e2 : calculateSimilarity "abcdefghij" "abcdefghijx" =
      ((11 : Rat) - (1 : Rat)) / (11 : Rat) :=
    calculateSimilarity_eval _ _ 11 1 (by decide) (by decide) (by decide)
  refine ⟨by decide, by decide, ?_, ?_⟩
  · rw [e1]; norm_num
  · rw [e1, e2]; norm_num

/-- Claim C4 as amended: for an incoming name classified Similar, the
suggested merge target is the first existing tag, in enumeration order,
whose similarity exceeds 0.8 — not the one with the highest similarity. -/
theorem classifier_similar_target (importTag : String)
    (existingTags : List String)
    (h : (analyzeTagConflict importTag existingTags).type = "similar") :
    (analyzeTagConflict importTag existingTags).suggestedName =
      (existingTags.filter (fun tag => similarityGt08 importTag tag)).head? := by
  by_cases hc : importTag ∈ existingTags
  · simp [analyzeTagConflict, hc] at h
  · cases hf : existingTags.find?
        (fun tag => jsToLower tag == jsToLower importTag) with
    | some c => simp [analyzeTagConflict, hc, hf] at h
    | none =>
        cases hl : existingTags.filter
            (fun tag => similarityGt08 importTag tag) with
        | nil => simp [analyzeTagConflict, hc, hf, hl] at h
        | cons t rest => simp [analyzeTagConflict, hc, hf, hl]

/-- Witness for `classifier_similar_target` at a concrete Similar input. -/
theorem classifier_similar_target_witness :
    (analyzeTagConflict "newslettr" ["News", "news-letter"]).type =
      "similar" ∧
    (analyzeTagConflict "newslettr" ["News", "news-letter"]).suggestedName =
      (["News", "news-letter"].filter
        (fun tag => similarityGt08 "newslettr" tag)).head? :=
  ⟨by decide, classifier_similar_target "newslettr" ["News", "news-letter"]
    (by decide)⟩

/-- Claim C10: the `getBookmarks` body is total on malformed data — a
non-array `bookmarks` value yields the empty list, and an array yields
exactly the non-null, non-soft-deleted entries. -/
theorem getBookmarks_total :
    (∀ m, getBookmarksBody (BookVal.objmap m) = []) ∧
    getBookmarksBody BookVal.prim = [] ∧
    ∀ (entries : List (Option Bookmark)) (b : Bookmark),
      b ∈ getBookmarksBody (BookVal.arr entries) ↔
        some b ∈ entries ∧ b.deleted = false := by
  refine ⟨fun m => rfl, rfl, fun entries b => ?_⟩
  simp only [getBookmarksBody, List.mem_filterMap]
  constructor
  · rintro ⟨e, he, hm⟩
    match e with
    | none => simp at hm
    | some b2 =>
        by_cases hd : b2.deleted <;> simp [hd] at hm
        subst hm
        exact ⟨he, by simpa using hd⟩
  · rintro ⟨he, hd⟩
    exact ⟨some b, he, by simp [hd]⟩

/-! ## Association-list lemmas -/

theorem tagLookup_eq_none_iff (m : List (String × Tag)) (k : String) :
    tagLookup m k = none ↔ k ∉ m.map Prod.fst := by
  unfold tagLookup
  rw [Option.map_eq_none', List.find?_eq_none]
  constructor
  · intro h hk
    obtain ⟨p, hp, hpk⟩ := List.mem_map.mp hk
    exact (by simpa [hpk] using h p hp)
  · intro h p hp
    simp only [beq_iff_eq]
    intro hpk
    exact h (List.mem_map.mpr ⟨p, hp, hpk⟩)

theorem tagLookup_isSome_iff (m : List (String × Tag)) (k : String) :
    (tagLookup m k).isSome = true ↔ k ∈ m.map Prod.fst := by
  simp only [← Option.ne_none_iff_isSome, Ne, tagLookup_eq_none_iff, not_not]

theorem tagLookup_modify_ne (m : List (String × Tag)) (k k2 : String)
    (f : Tag → Tag) (h : k2 ≠ k) :
    tagLookup (tagModify m k f) k2 = tagLookup m k2 := by
  induction m with
  | nil => rfl
  | cons p ps ih =>
      unfold tagModify at ih ⊢
      simp only [List.map_cons]
      unfold tagLookup at ih ⊢
      by_cases hp : p.1 = k
      · have h1 : (p.1 == k) = true := by simp [hp]
        have h2 : (k == k2) = false := by simp [Ne.symm h]
        have h3 : (p.1 == k2) = false := by simp [hp, Ne.symm h]
        rw [if_pos h1, List.find?_cons_of_neg _ (by simp [hp, Ne.symm h]),
          List.find?_cons_of_neg _ (by simp [hp, Ne.symm h])]
        exact ih
      · have h1 : (p.1 == k) = false := by simp [hp]
        rw [if_neg (by simp [h1])]
        by_cases hq : p.1 = k2
        · rw [List.find?_cons_of_pos _ (by simp [hq]),
            List.find?_cons_of_pos _ (by simp [hq])]
        · rw [List.find?_cons_of_neg _ (by simp [hq]),
            List.find?_cons_of_neg _ (by simp [hq])]
          exact ih

theorem tagLookup_modify_self (m : List (String × Tag)) (k : String)
    (f : Tag → Tag) :
    tagLookup (tagModify m k f) k = (tagLookup m k).map f := by
  induction m with
  | nil => rfl
  | cons p ps ih =>
      unfold tagModify at ih ⊢
      simp only [List.map_cons]
      unfold tagLookup at ih ⊢
      by_cases hp : p.1 = k
      · have h1 : (p.1 == k) = true := by simp [hp]
        rw [if_pos h1, List.find?_cons_of_pos _ (by simp [hp]),
          List.find?_cons_of_pos _ (by simp [hp])]
        rfl
      · have h1 : (p.1 == k) = false := by simp [hp]
        rw [if_neg (by simp [h1]), List.find?_cons_of_neg _ (by simp [hp]),
          List.find?_cons_of_neg _ (by simp [hp])]
        exact ih

theorem tagLookup_erase_self (m : List (String × Tag)) (k : String) :
    tagLookup (tagErase m k) k = none := by
  unfold tagLookup tagErase
  rw [Option.map_eq_none', List.find?_eq_none]
  intro p hp
  have := (List.mem_filter.mp hp).2
  simpa using this

theorem tagLookup_erase_ne (m : List (String × Tag)) (k k2 : String)
    (h : k2 ≠ k) :
    tagLookup (tagErase m k) k2 = tagLookup m k2 := by
  induction m with
  | nil => rfl
  | cons p ps ih =>
      unfold tagErase at ih ⊢
      unfold tagLookup at ih ⊢
      by_cases hp : p.1 = k
      · rw [List.filter_cons_of_neg (by simp [hp]),
          List.find?_cons_of_neg _ (by simp [hp, Ne.symm h])]
        exact ih
      · rw [List.filter_cons_of_pos (by simp [hp])]
        by_cases hq : p.1 = k2
        · rw [List.find?_cons_of_pos _ (by simp [hq]),
            List.find?_cons_of_pos _ (by simp [hq])]
        · rw [List.find?_cons_of_neg _ (by simp [hq]),
            List.find?_cons_of_neg _ (by simp [hq])]
          exact ih

theorem tagModify_keys (m : List (String × Tag)) (k : String) (f : Tag → Tag) :
    (tagModify m k f).map Prod.fst = m.map Prod.fst := by
  unfold tagModify
  rw [List.map_map]
  exact List.map_congr_left (fun p hp => by
    simp only [Function.comp_apply]
    split <;> rfl)

theorem tagErase_keys_sublist (m : List (String × Tag)) (k : String) :
    ((tagErase m k).map Prod.fst).Sublist (m.map Prod.fst) :=
  List.Sublist.map Prod.fst (List.filter_sublist m)

/-! ## deleteTag: claims C2 and C7 -/

/-- A Document with one tag entry keyed "work" and one live bookmark whose
raw tag spelling is "Work"; used to exercise `deleteTag "work"`. -/
def c2Doc : StorageData :=
  { bookmarks := [{ id := "b1", url := "https://a.com", title := "A",
                    note := "", tags := ["Work"], createdAt := "T0" }],
    tags := [("work", { id := "t1", name := "work", count := 1,
                        createdAt := "T0" })],
    settings := defaultSettings }

/-- Claim C2, counterexample: `deleteTag "work"` succeeds on `c2Doc`, yet
the bookmark keeps its tag-list entry `"Work"`, which normalizes to the
same key as the deleted name — the strip is an exact string match
(`includes(tagName)`), not a case-insensitive one. -/
theorem deleteTag_case_mismatch :
    ∃ d2, deleteTag c2Doc "work" "T1" = Except.ok d2 ∧
      ∃ b ∈ d2.bookmarks, ∃ t ∈ b.tags,
        normalizeTag t = normalizeTag "work" ∧ t ∈ b.tags := by
  refine ⟨{ bookmarks := [{ id := "b1", url := "https://a.com", title := "A",
                            note := "", tags := ["Work"], createdAt := "T0" }],
            tags := [], deletedDefaultTags := some [],
            settings := defaultSettings }, by rfl, ?_⟩
  refine ⟨{ id := "b1", url := "https://a.com", title := "A",
            note := "", tags := ["Work"], createdAt := "T0" }, by decide,
    "Work", by decide, by decide, by decide⟩

/-- Claim C2 as amended: after a successful `deleteTag name`, no bookmark
keeps a tag-list entry exactly (byte-for-byte) equal to `name` — entries
that only match after case normalization may remain — and every bookmark
that had an exact entry has it filtered out and carries the fresh update
timestamp, while every other bookmark is unchanged. -/
theorem deleteTag_strips_exact (d : StorageData) (name now : String)
    (d2 : StorageData) (h : deleteTag d name now = Except.ok d2) :
    (∀ b2 ∈ d2.bookmarks, name ∉ b2.tags) ∧
    List.Forall₂ (fun b b2 =>
        (name ∈ b.tags →
          b2.tags = b.tags.filter (fun t => !(t == name)) ∧
          b2.updatedAt = some now) ∧
        (name ∉ b.tags → b2 = b))
      d.bookmarks d2.bookmarks := by
  simp only [deleteTag] at h
  cases hl : tagLookup d.tags (normalizeTag name) with
  | none => rw [hl] at h; exact absurd h (by simp)
  | some tg =>
      rw [hl] at h
      simp only [Except.ok.injEq] at h
      subst h
      constructor
      · intro b2 hb2
        simp only at hb2
        obtain ⟨b, _, rfl⟩ := List.mem_map.mp hb2
        by_cases hm : b.tags.contains name
        · rw [if_pos hm]
          intro hmem
          simp only [List.mem_filter] at hmem
          simpa using hmem.2
        · rw [if_neg hm]
          intro hmem
          exact hm (List.elem_iff.mpr hmem)
      · simp only
        rw [List.forall₂_map_right_iff, List.forall₂_same]
        intro b _
        by_cases hm : name ∈ b.tags
        · have hc : b.tags.contains name = true := List.elem_iff.mpr hm
          refine ⟨fun _ => ?_, fun hnot => absurd hm hnot⟩
          rw [if_pos hc]
          exact ⟨rfl, rfl⟩
        · have hc : ¬ b.tags.contains name = true := fun hcc =>
            hm (List.elem_iff.mp hcc)
          refine ⟨fun hmem => absurd hmem hm, fun _ => ?_⟩
          rw [if_neg hc]

/-- Witness for `deleteTag_strips_exact` on `c2Doc` with the exact spelling
"work" absent from the bookmark, so the bookmark is untouched. -/
theorem deleteTag_strips_exact_witness :
    deleteTag c2Doc "work" "T1" =
      Except.ok { bookmarks := c2Doc.bookmarks, tags := [],
                  deletedDefaultTags := some [],
                  settings := defaultSettings } ∧
    (∀ b2 ∈ ({ bookmarks := c2Doc.bookmarks, tags := [],
               deletedDefaultTags := some [],
               settings := defaultSettings } : StorageData).bookmarks,
        "work" ∉ b2.tags) ∧
    List.Forall₂ (fun b b2 =>
        ("work" ∈ b.tags →
          b2.tags = b.tags.filter (fun t => !(t == "work")) ∧
          b2.updatedAt = some "T1") ∧
        ("work" ∉ b.tags → b2 = b))
      c2Doc.bookmarks
      ({ bookmarks := c2Doc.bookmarks, tags := [],
         deletedDefaultTags := some [],
         settings := defaultSettings } : StorageData).bookmarks :=
  ⟨by rfl, deleteTag_strips_exact c2Doc "work" "T1" _ (by rfl)⟩

theorem pushAbsent_nodup (l : List String) (x : String) (h : l.Nodup) :
    (pushAbsent l x).Nodup := by
  unfold pushAbsent
  split
  · exact h
  · next hc =>
      rw [List.nodup_append]
      exact ⟨h, List.nodup_singleton x,
        by simpa using fun hx => hc (List.elem_iff.mpr hx)⟩

theorem pushAbsent_count_self (l : List String) (x : String) (h : l.Nodup) :
    (pushAbsent l x).count x = 1 := by
  unfold pushAbsent
  split
  · next hc => exact List.count_eq_one_of_mem h (List.elem_iff.mp hc)
  · next hc =>
      rw [List.count_append]
      have h0 : l.count x = 0 :=
        List.count_eq_zero.mpr (fun hx => hc (List.elem_iff.mpr hx))
      simp [h0]

theorem pushAbsent_count_ne (l : List String) (x y : String) (h : y ≠ x) :
    (pushAbsent l x).count y = l.count y := by
  unfold pushAbsent
  split
  · rfl
  · rw [List.count_append]
    simp [List.count_cons, h]

/-- Claim C7: deleting a starter tag records both its raw and its normalized
name in the suppression ledger, each exactly once (given a duplicate-free
ledger beforehand), keeps the ledger duplicate-free, and removes the Tag
entry for the normalized key. -/
theorem deleteTag_starter_ledger (d : StorageData) (name now : String)
    (d2 : StorageData) (hstar : name ∈ DEFAULT_TAGS)
    (hnd : (d.deletedDefaultTags.getD []).Nodup)
    (h : deleteTag d name now = Except.ok d2) :
    ∃ L, d2.deletedDefaultTags = some L ∧ L.count name = 1 ∧
      L.count (normalizeTag name) = 1 ∧ L.Nodup ∧
      tagLookup d2.tags (normalizeTag name) = none := by
  simp only [deleteTag] at h
  cases hl : tagLookup d.tags (normalizeTag name) with
  | none => rw [hl] at h; exact absurd h (by simp)
  | some tg =>
      rw [hl] at h
      simp only [Except.ok.injEq] at h
      subst h
      have hc : DEFAULT_TAGS.contains name = true := List.elem_iff.mpr hstar
      refine ⟨_, rfl, ?_⟩
      rw [if_pos hc]
      have h1nodup : (pushAbsent (d.deletedDefaultTags.getD []) name).Nodup :=
        pushAbsent_nodup _ _ hnd
      refine ⟨?_, ?_, ?_, ?_⟩
      · by_cases hk : name = normalizeTag name
        · rw [← hk]
          exact pushAbsent_count_self _ _ h1nodup
        · rw [pushAbsent_count_ne _ _ _ hk]
          exact pushAbsent_count_self _ _ hnd
      · exact pushAbsent_count_self _ _ h1nodup
      · exact pushAbsent_nodup _ _ h1nodup
      · exact tagLookup_erase_self _ _

/-- A Document whose tag index holds the starter tag 工作; used to exercise
`deleteTag` on a starter name. -/
def c7Doc : StorageData :=
  { bookmarks := [],
    tags := [("工作", { id := "t1", name := "工作", count := 0,
                        createdAt := "T0" })],
    settings := defaultSettings }

/-- Witness for `deleteTag_starter_ledger`: deleting the starter tag 工作
from `c7Doc` puts its (identical) raw and normalized forms in the ledger
exactly once and removes the index entry. -/
theorem deleteTag_starter_ledger_witness :
    ("工作" ∈ DEFAULT_TAGS ∧
      (c7Doc.deletedDefaultTags.getD []).Nodup ∧
      deleteTag c7Doc "工作" "T1" =
        Except.ok { bookmarks := [], tags := [],
                    deletedDefaultTags := some ["工作"],
                    settings := defaultSettings }) ∧
    ∃ L, ({ bookmarks := [], tags := [],
            deletedDefaultTags := some ["工作"],
            settings := defaultSettings } : StorageData).deletedDefaultTags
        = some L ∧
      L.count "工作" = 1 ∧ L.count (normalizeTag "工作") = 1 ∧ L.Nodup ∧
      tagLookup ({ bookmarks := [], tags := [],
                   deletedDefaultTags := some ["工作"],
                   settings := defaultSettings } : StorageData).tags
        (normalizeTag "工作") = none :=
  ⟨⟨by decide, by decide, by rfl⟩,
    deleteTag_starter_ledger c7Doc "工作" "T1" _ (by decide) (by decide)
      (by rfl)⟩

/-! ## replaceFirst and tag-loop lemmas -/

theorem replaceFirst_eq_none_iff (p : Bookmark → Bool) (f : Bookmark → Bookmark)
    (l : List Bookmark) :
    replaceFirst p f l = none ↔ ∀ b ∈ l, p b = false := by
  induction l with
  | nil => simp [replaceFirst]
  | cons b bs ih =>
      unfold replaceFirst
      by_cases hb : p b
      · simp [hb]
      · simp only [if_neg hb, Option.map_eq_none', ih]
        simp [Bool.eq_false_iff.mpr hb]

theorem replaceFirst_found (p : Bookmark → Bool) (f : Bookmark → Bookmark)
    (l : List Bookmark) (q : Bookmark × List Bookmark)
    (h : replaceFirst p f l = some q) : q.1 ∈ l ∧ p q.1 = true := by
  induction l generalizing q with
  | nil => simp [replaceFirst] at h
  | cons b bs ih =>
      unfold replaceFirst at h
      by_cases hb : p b
      · rw [if_pos hb] at h
        simp only [Option.some.injEq] at h
        subst h
        exact ⟨List.mem_cons_self b bs, hb⟩
      · rw [if_neg hb] at h
        cases hr : replaceFirst p f bs with
        | none => rw [hr] at h; simp at h
        | some q2 =>
            rw [hr] at h
            simp only [Option.map_some', Option.some.injEq] at h
            subst h
            obtain ⟨hmem, hp⟩ := ih q2 hr
            exact ⟨List.mem_cons_of_mem b hmem, hp⟩

theorem replaceFirst_append (p : Bookmark → Bool) (f : Bookmark → Bookmark)
    (pre post : List Bookmark) (b : Bookmark) (hb : p b = true)
    (hpre : ∀ c ∈ pre, p c = false) :
    replaceFirst p f (pre ++ b :: post) = some (b, pre ++ f b :: post) := by
  induction pre with
  | nil => simp [replaceFirst, hb]
  | cons c cs ih =>
      have hc : p c = false := hpre c (List.mem_cons_self c cs)
      have hstep : replaceFirst p f ((c :: cs) ++ b :: post) =
          (replaceFirst p f (cs ++ b :: post)).map
            (fun q => (q.1, c :: q.2)) := by
        rw [List.cons_append]
        simp only [replaceFirst]
        rw [if_neg (by simp [hc])]
      rw [hstep, ih (fun x hx => hpre x (List.mem_cons_of_mem c hx))]
      rfl

/-- Claim C6: with a loaded cache, `updateBookmark` fails with the code's
NotFound error exactly when no bookmark record — soft-deleted or not — has
the requested id, and on that failure both the cached and the persisted
Document are unchanged. -/
theorem updateBookmark_notFound (s : MState) (d : StorageData) (id : String)
    (u : BookmarkUpdate) (gen : Nat → String) (now : String)
    (h : s.cache = some d) :
    ((mUpdateBookmark s id u gen now).1 = Except.error "Bookmark not found" ↔
      ∀ b ∈ d.bookmarks, b.id ≠ id) ∧
    ((∀ b ∈ d.bookmarks, b.id ≠ id) →
      (mUpdateBookmark s id u gen now).2 = s) := by
  have hg := mGetData_cache_hit s d gen now h
  unfold mUpdateBookmark
  rw [hg]
  dsimp only
  unfold updateBookmark
  cases hr : replaceFirst (fun b => b.id == id)
      (fun b => mergeUpdate b u now) d.bookmarks with
  | none =>
      simp only [hr]
      have hall := (replaceFirst_eq_none_iff _ _ _).mp hr
      refine ⟨?_, fun _ => trivial⟩
      constructor
      · intro _ b hb
        simpa using hall b hb
      · intro _
        trivial
  | some q =>
      obtain ⟨old, bk2⟩ := q
      dsimp only
      obtain ⟨hmem, hp⟩ := replaceFirst_found _ _ _ _ hr
      have hcontr : ¬ ∀ b ∈ d.bookmarks, b.id ≠ id := fun hall =>
        absurd (by simpa using hp) (hall old hmem)
      refine ⟨?_, fun hall => absurd hall hcontr⟩
      constructor
      · intro he
        exact absurd he (by simp)
      · intro hall
        exact absurd hall hcontr

/-- A two-bookmark Document used as the C6 witness state. -/
def c6Doc : StorageData :=
  { bookmarks := [{ id := "b1", url := "u", title := "t", note := "",
                    tags := [], createdAt := "T0" }],
    tags := [], settings := defaultSettings }

/-- Witness for `updateBookmark_notFound`: on a manager whose cache holds
`c6Doc`, updating the absent id "zz" fails with NotFound and leaves the
state untouched. -/
theorem updateBookmark_notFound_witness :
    ({ backend := {}, cache := some c6Doc } : MState).cache = some c6Doc ∧
    (((mUpdateBookmark { backend := {}, cache := some c6Doc } "zz" {}
        (fun _ => "g") "T1").1 = Except.error "Bookmark not found" ↔
      ∀ b ∈ c6Doc.bookmarks, b.id ≠ "zz") ∧
    ((∀ b ∈ c6Doc.bookmarks, b.id ≠ "zz") →
      (mUpdateBookmark { backend := {}, cache := some c6Doc } "zz" {}
        (fun _ => "g") "T1").2 =
        { backend := {}, cache := some c6Doc })) :=
  ⟨rfl, updateBookmark_notFound { backend := {}, cache := some c6Doc }
    c6Doc "zz" {} (fun _ => "g") "T1" rfl⟩

/-! ## Lemmas about the add/dec tag loops -/

theorem tagLookup_append_single_ne (m : List (String × Tag)) (k2 : String)
    (v : Tag) (k : String) (h : k ≠ k2) :
    tagLookup (m ++ [(k2, v)]) k = tagLookup m k := by
  unfold tagLookup
  rw [List.find?_append, List.find?_cons_of_neg _ (by simp [Ne.symm h]),
    List.find?_nil]
  simp

theorem tagLookup_append_single_self (m : List (String × Tag)) (k : String)
    (v : Tag) (h : tagLookup m k = none) :
    tagLookup (m ++ [(k, v)]) k = some v := by
  unfold tagLookup at h ⊢
  rw [Option.map_eq_none'] at h
  rw [List.find?_append, h, List.find?_cons_of_pos _ (by simp)]
  simp

/-- The value an existing entry is bumped to, and a fresh entry holds, after
one `addTagStep`. -/
def incOne (tagName : String) (tid now : String) (o : Option Tag) : Tag :=
  match o with
  | none => { id := tid, name := tagName, count := 1, createdAt := now }
  | some tag => { tag with count := tag.count + 1 }

theorem addTagStep_lookup_ne (now : String) (gen : Nat → String)
    (m : List (String × Tag)) (n : Nat) (t k : String)
    (h : k ≠ normalizeTag t) :
    tagLookup (addTagStep now gen (m, n) t).1 k = tagLookup m k := by
  unfold addTagStep
  cases hl : tagLookup m (normalizeTag t) with
  | none =>
      simp only [hl]
      rw [tagLookup_modify_ne _ _ _ _ h, tagLookup_append_single_ne _ _ _ _ h]
  | some tag =>
      simp only [hl]
      rw [tagLookup_modify_ne _ _ _ _ h]

theorem addTagStep_lookup_self (now : String) (gen : Nat → String)
    (m : List (String × Tag)) (n : Nat) (t : String) :
    tagLookup (addTagStep now gen (m, n) t).1 (normalizeTag t) =
      some (incOne t (gen n) now (tagLookup m (normalizeTag t))) := by
  unfold addTagStep incOne
  cases hl : tagLookup m (normalizeTag t) with
  | none =>
      simp only [hl]
      rw [tagLookup_modify_self,
        tagLookup_append_single_self _ _ _ hl]
      rfl
  | some tag =>
      simp only [hl]
      rw [tagLookup_modify_self, hl]
      rfl

theorem addTagsFold_lookup_ne (now : String) (gen : Nat → String)
    (ts : List String) (k : String) (h : k ∉ ts.map normalizeTag) :
    ∀ (m : List (String × Tag)) (n : Nat),
      tagLookup (addTagsFold now gen ts m n).1 k = tagLookup m k := by
  induction ts with
  | nil => intro m n; rfl
  | cons t ts ih =>
      intro m n
      have hk : k ≠ normalizeTag t := by
        intro he
        exact h (by simp [he])
      have hts : k ∉ ts.map normalizeTag := by
        intro he
        exact h (by simp [he])
      have h1 : tagLookup (addTagsFold now gen ts
          (addTagStep now gen (m, n) t).1
          (addTagStep now gen (m, n) t).2).1 k =
          tagLookup (addTagStep now gen (m, n) t).1 k := ih hts _ _
      have h2 := addTagStep_lookup_ne now gen m n t k hk
      exact h1.trans h2

/-- Claim C9: `addBookmark` appends exactly one new record at the end of the
bookmark list, leaving every pre-existing record unchanged, and leaves every
tag entry whose key is not among the draft's normalized tag names
untouched. -/
theorem addBookmark_frame (d : StorageData) (draft : Draft) (bid : String)
    (gen : Nat → String) (now : String) :
    (addBookmark d draft bid gen now).1.bookmarks =
      d.bookmarks ++ [(addBookmark d draft bid gen now).2] ∧
    ∀ k, k ∉ draft.tags.map normalizeTag →
      tagLookup (addBookmark d draft bid gen now).1.tags k =
        tagLookup d.tags k := by
  refine ⟨rfl, fun k hk => ?_⟩
  exact addTagsFold_lookup_ne now gen draft.tags k hk d.tags 0

/-- Concrete Document and draft for the C9 witness. -/
def c9Doc : StorageData :=
  { bookmarks := [],
    tags := [("a", { id := "t1", name := "a", count := 0,
                     createdAt := "T0" })],
    settings := defaultSettings }

def c9Draft : Draft :=
  { url := "u", title := "t", note := "", tags := ["b"] }

/-- Witness for `addBookmark_frame`: adding a draft tagged "b" to `c9Doc`
keeps the unrelated key "a" intact. -/
theorem addBookmark_frame_witness :
    (addBookmark c9Doc c9Draft "b1" (fun _ => "g") "T1").1.bookmarks =
      c9Doc.bookmarks ++
        [(addBookmark c9Doc c9Draft "b1" (fun _ => "g") "T1").2] ∧
    ("a" ∉ c9Draft.tags.map normalizeTag ∧
      tagLookup (addBookmark c9Doc c9Draft "b1"
          (fun _ => "g") "T1").1.tags "a" = tagLookup c9Doc.tags "a") :=
  ⟨(addBookmark_frame c9Doc c9Draft "b1" (fun _ => "g") "T1").1, by decide,
    (addBookmark_frame c9Doc c9Draft "b1" (fun _ => "g") "T1").2 "a"
      (by decide)⟩

/-! ## Lemmas about the decrement loop, and claim C8 -/

/-- The effect of one decrement on a looked-up entry: absent keys stay
absent, a count of one or less removes the entry, otherwise the count drops
by one. -/
def decOne (o : Option Tag) : Option Tag :=
  match o with
  | none => none
  | some tag => if tag.count - 1 ≤ 0 then none
                else some { tag with count := tag.count - 1 }

theorem decTagStep_lookup_ne (m : List (String × Tag)) (t k : String)
    (h : k ≠ normalizeTag t) :
    tagLookup (decTagStep m t) k = tagLookup m k := by
  unfold decTagStep
  cases hl : tagLookup m (normalizeTag t) with
  | none => simp only [hl]
  | some tag =>
      simp only [hl]
      split
      · rw [tagLookup_erase_ne _ _ _ h, tagLookup_modify_ne _ _ _ _ h]
      · rw [tagLookup_modify_ne _ _ _ _ h]

theorem decTagStep_lookup_self (m : List (String × Tag)) (t : String) :
    tagLookup (decTagStep m t) (normalizeTag t) =
      decOne (tagLookup m (normalizeTag t)) := by
  unfold decTagStep decOne
  cases hl : tagLookup m (normalizeTag t) with
  | none => simp only [hl]
  | some tag =>
      simp only [hl]
      split
      · rw [tagLookup_erase_self]
      · rw [tagLookup_modify_self, hl]
        rfl

theorem decTagsFold_lookup_ne (ts : List String) (k : String)
    (h : k ∉ ts.map normalizeTag) (m : List (String × Tag)) :
    tagLookup (decTagsFold ts m) k = tagLookup m k := by
  induction ts generalizing m with
  | nil => rfl
  | cons t ts ih =>
      have hk : k ≠ normalizeTag t := fun he => h (by simp [he])
      have hts : k ∉ ts.map normalizeTag := fun he => h (by simp [he])
      have h1 : tagLookup (decTagsFold ts (decTagStep m t)) k =
          tagLookup (decTagStep m t) k := ih hts (decTagStep m t)
      exact h1.trans (decTagStep_lookup_ne m t k hk)

theorem decTagsFold_lookup_mem (ts : List String)
    (hnd : (ts.map normalizeTag).Nodup) (t : String) (ht : t ∈ ts)
    (m : List (String × Tag)) :
    tagLookup (decTagsFold ts m) (normalizeTag t) =
      decOne (tagLookup m (normalizeTag t)) := by
  induction ts generalizing m with
  | nil => cases ht
  | cons t0 ts ih =>
      have hnd0 : normalizeTag t0 ∉ ts.map normalizeTag :=
        (List.nodup_cons.mp (by simpa using hnd)).1
      have hndt : (ts.map normalizeTag).Nodup :=
        (List.nodup_cons.mp (by simpa using hnd)).2
      by_cases he : normalizeTag t = normalizeTag t0
      · have h1 : tagLookup (decTagsFold ts (decTagStep m t0))
            (normalizeTag t) = tagLookup (decTagStep m t0)
            (normalizeTag t) := by
          rw [he]
          exact decTagsFold_lookup_ne ts (normalizeTag t0) hnd0 _
        have h2 : tagLookup (decTagStep m t0) (normalizeTag t) =
            decOne (tagLookup m (normalizeTag t)) := by
          rw [he]
          exact decTagStep_lookup_self m t0
        exact h1.trans h2
      · have ht2 : t ∈ ts := by
          cases List.mem_cons.mp ht with
          | inl h0 => exact absurd (congrArg normalizeTag h0) he
          | inr h0 => exact h0
        have h1 : tagLookup (decTagsFold ts (decTagStep m t0))
            (normalizeTag t) = decOne (tagLookup (decTagStep m t0)
            (normalizeTag t)) := ih hndt ht2 (decTagStep m t0)
        rw [decTagStep_lookup_ne m t0 _ he] at h1
        exact h1

/-- Claim C8: `deleteBookmark` never inspects the soft-delete flag. Applied
to the first record with the requested id, even when that record is already
soft-deleted, it succeeds, re-stamps the deletion timestamp, and decrements
the count of each of the record's (normalized-distinct) tags again —
removing any entry whose count drops to zero or below — while entries for
other keys are untouched. -/
theorem deleteBookmark_ignores_flag (d : StorageData) (id now : String)
    (pre post : List Bookmark) (b : Bookmark)
    (hsplit : d.bookmarks = pre ++ b :: post) (hid : b.id = id)
    (hpre : ∀ c ∈ pre, c.id ≠ id) (_hdel : b.deleted = true)
    (hnd : (b.tags.map normalizeTag).Nodup) :
    ∃ d2, deleteBookmark d id now = Except.ok d2 ∧
      d2.bookmarks = pre ++
        ({ b with deleted := true, deletedAt := some now } :: post) ∧
      (∀ t ∈ b.tags, tagLookup d2.tags (normalizeTag t) =
        decOne (tagLookup d.tags (normalizeTag t))) ∧
      (∀ k, k ∉ b.tags.map normalizeTag →
        tagLookup d2.tags k = tagLookup d.tags k) := by
  have hrep := replaceFirst_append (fun c => c.id == id)
    (fun c => { c with deleted := true, deletedAt := some now })
    pre post b (by simp [hid]) (fun c hc => by simp [hpre c hc])
  refine ⟨{ d with
      bookmarks := pre ++
        ({ b with deleted := true, deletedAt := some now } :: post),
      tags := decTagsFold b.tags d.tags }, ?_, rfl, ?_, ?_⟩
  · unfold deleteBookmark
    rw [hsplit, hrep]
  · intro t ht
    exact decTagsFold_lookup_mem b.tags hnd t ht d.tags
  · intro k hk
    exact decTagsFold_lookup_ne b.tags k hk d.tags

/-- A Document holding one already-soft-deleted bookmark tagged "a" whose
tag entry still counts 1; used as the C8 witness. -/
def c8Doc : StorageData :=
  { bookmarks := [{ id := "b1", url := "u", title := "t", note := "",
                    tags := ["a"], createdAt := "T0", deleted := true,
                    deletedAt := some "T1" }],
    tags := [("a", { id := "t1", name := "a", count := 1,
                     createdAt := "T0" })],
    settings := defaultSettings }

/-- The already-soft-deleted record of `c8Doc`. -/
def c8B : Bookmark :=
  { id := "b1", url := "u", title := "t", note := "", tags := ["a"],
    createdAt := "T0", deleted := true, deletedAt := some "T1" }

/-- Witness for `deleteBookmark_ignores_flag`: a second `deleteBookmark` on
the already-deleted record of `c8Doc` succeeds, re-stamps `deletedAt`, and
drives the tag count of "a" to zero, removing the entry. -/
theorem deleteBookmark_ignores_flag_witness :
    (c8Doc.bookmarks = [] ++ c8B :: [] ∧ c8B.deleted = true ∧
      (c8B.tags.map normalizeTag).Nodup) ∧
    ∃ d2, deleteBookmark c8Doc "b1" "T2" = Except.ok d2 ∧
      d2.bookmarks = [] ++
        ({ c8B with deleted := true, deletedAt := some "T2" } :: []) ∧
      (∀ t ∈ c8B.tags, tagLookup d2.tags (normalizeTag t) =
        decOne (tagLookup c8Doc.tags (normalizeTag t))) ∧
      (∀ k, k ∉ c8B.tags.map normalizeTag →
        tagLookup d2.tags k = tagLookup c8Doc.tags k) :=
  ⟨⟨rfl, rfl, by decide⟩,
    deleteBookmark_ignores_flag c8Doc "b1" "T2" [] [] c8B rfl rfl
      (by simp) rfl (by decide)⟩

/-! ## Helper lemmas for the tag-count invariant (claim C1) -/

theorem tagLookup_of_mem (m : List (String × Tag))
    (hnd : (m.map Prod.fst).Nodup) (p : String × Tag) (hp : p ∈ m) :
    tagLookup m p.1 = some p.2 := by
  induction m with
  | nil => cases hp
  | cons q qs ih =>
      rcases List.mem_cons.mp hp with h0 | h0
      · subst h0
        unfold tagLookup
        rw [List.find?_cons_of_pos _ (by simp)]
        rfl
      · have hnd2 : q.1 ∉ qs.map Prod.fst ∧ (qs.map Prod.fst).Nodup := by
          rw [List.map_cons, List.nodup_cons] at hnd
          exact hnd
        have hq : q.1 ≠ p.1 := by
          intro he
          exact hnd2.1 (by
            rw [he]
            exact List.mem_map.mpr ⟨p, h0, rfl⟩)
        unfold tagLookup
        rw [List.find?_cons_of_neg _ (by simp only [beq_iff_eq]; exact hq)]
        exact ih hnd2.2 h0

theorem tagLookup_mem (m : List (String × Tag)) (k : String) (tag : Tag)
    (h : tagLookup m k = some tag) : (k, tag) ∈ m := by
  unfold tagLookup at h
  cases hf : m.find? (fun p => p.1 == k) with
  | none => rw [hf] at h; cases h
  | some q =>
      rw [hf] at h
      simp only [Option.map_some', Option.some.injEq] at h
      have hq1 : q.1 = k := by simpa using List.find?_some hf
      have hmem := List.mem_of_find?_eq_some hf
      have : (k, tag) = q := by
        cases q
        simp_all
      rw [this]
      exact hmem

theorem liveCountL_cons (x : Bookmark) (bs : List Bookmark) (k : String) :
    liveCountL (x :: bs) k =
      (if x.deleted = false ∧ k ∈ normKeys x then 1 else 0) +
        liveCountL bs k := by
  unfold liveCountL
  rw [List.filter_cons]
  by_cases hx : x.deleted = false ∧ k ∈ normKeys x
  · rw [if_pos (by
      simp only [Bool.and_eq_true, Bool.not_eq_true']
      exact ⟨hx.1, List.elem_iff.mpr hx.2⟩), if_pos hx]
    simp [Nat.add_comm]
  · rw [if_neg (by
      simp only [Bool.and_eq_true, Bool.not_eq_true']
      intro hc
      exact hx ⟨hc.1, List.elem_iff.mp hc.2⟩), if_neg hx]
    simp

theorem liveCountL_append (xs ys : List Bookmark) (k : String) :
    liveCountL (xs ++ ys) k = liveCountL xs k + liveCountL ys k := by
  unfold liveCountL
  rw [List.filter_append, List.length_append]

theorem liveCount_eq_zero_of_no_entry (d : StorageData)
    (hcomp : tagComplete d) (k : String)
    (hnone : tagLookup d.tags k = none) : liveCount d k = 0 := by
  unfold liveCount liveCountL
  rw [List.length_eq_zero, List.filter_eq_nil_iff]
  intro b hb
  simp only [Bool.and_eq_true, Bool.not_eq_true', not_and]
  intro hlive hmem
  obtain ⟨t, ht, hkt⟩ := List.mem_map.mp (List.elem_iff.mp hmem)
  have := hcomp b hb hlive t ht
  rw [hkt, hnone] at this
  cases this

theorem replaceFirst_find? (p : Bookmark → Bool) (f : Bookmark → Bookmark)
    (l : List Bookmark) (q : Bookmark × List Bookmark)
    (h : replaceFirst p f l = some q) : l.find? p = some q.1 := by
  induction l generalizing q with
  | nil => cases h
  | cons b bs ih =>
      unfold replaceFirst at h
      by_cases hb : p b
      · rw [if_pos hb] at h
        simp only [Option.some.injEq] at h
        subst h
        rw [List.find?_cons_of_pos _ hb]
      · rw [if_neg hb] at h
        cases hr : replaceFirst p f bs with
        | none => rw [hr] at h; cases h
        | some q2 =>
            rw [hr] at h
            simp only [Option.map_some', Option.some.injEq] at h
            subst h
            rw [List.find?_cons_of_neg _ hb]
            exact ih q2 hr

theorem replaceFirst_split (p : Bookmark → Bool) (f : Bookmark → Bookmark)
    (l : List Bookmark) (q : Bookmark × List Bookmark)
    (h : replaceFirst p f l = some q) :
    ∃ pre post, l = pre ++ q.1 :: post ∧ q.2 = pre ++ f q.1 :: post ∧
      ∀ c ∈ pre, p c = false := by
  induction l generalizing q with
  | nil => cases h
  | cons b bs ih =>
      unfold replaceFirst at h
      by_cases hb : p b
      · rw [if_pos hb] at h
        simp only [Option.some.injEq] at h
        subst h
        exact ⟨[], bs, rfl, rfl, by simp⟩
      · rw [if_neg hb] at h
        cases hr : replaceFirst p f bs with
        | none => rw [hr] at h; cases h
        | some q2 =>
            rw [hr] at h
            simp only [Option.map_some', Option.some.injEq] at h
            subst h
            obtain ⟨pre, post, h1, h2, h3⟩ := ih q2 hr
            exact ⟨b :: pre, post, by simp [h1], by simp [h2],
              fun c hc => by
                rcases List.mem_cons.mp hc with h0 | h0
                · subst h0; simpa using hb
                · exact h3 c h0⟩

theorem incOne_count (t tid now : String) (o : Option Tag) :
    (incOne t tid now o).count = ((o.map Tag.count).getD 0) + 1 := by
  cases o <;> rfl

theorem addTagsFold_lookup_mem (now : String) (gen : Nat → String)
    (ts : List String) (hnd : (ts.map normalizeTag).Nodup) (t : String)
    (ht : t ∈ ts) : ∀ (m : List (String × Tag)) (n : Nat),
    (tagLookup (addTagsFold now gen ts m n).1 (normalizeTag t)).map Tag.count
      = some (((tagLookup m (normalizeTag t)).map Tag.count).getD 0 + 1) := by
  induction ts with
  | nil => cases ht
  | cons t0 ts ih =>
      intro m n
      have hnd0 : normalizeTag t0 ∉ ts.map normalizeTag :=
        (List.nodup_cons.mp (by simpa using hnd)).1
      have hndt : (ts.map normalizeTag).Nodup :=
        (List.nodup_cons.mp (by simpa using hnd)).2
      by_cases he : normalizeTag t = normalizeTag t0
      · rw [he]
        have h1 : tagLookup (addTagsFold now gen ts
            (addTagStep now gen (m, n) t0).1
            (addTagStep now gen (m, n) t0).2).1 (normalizeTag t0) =
            tagLookup (addTagStep now gen (m, n) t0).1 (normalizeTag t0) :=
          addTagsFold_lookup_ne now gen ts _ hnd0 _ _
        have h2 := addTagStep_lookup_self now gen m n t0
        show (tagLookup (addTagsFold now gen ts
            (addTagStep now gen (m, n) t0).1
            (addTagStep now gen (m, n) t0).2).1 (normalizeTag t0)).map
            Tag.count = _
        rw [h1, h2, Option.map_some', incOne_count]
      · have ht2 : t ∈ ts := by
          cases List.mem_cons.mp ht with
          | inl h0 => exact absurd (congrArg normalizeTag h0) he
          | inr h0 => exact h0
        have h1 := ih hndt ht2 (addTagStep now gen (m, n) t0).1
          (addTagStep now gen (m, n) t0).2
        rw [addTagStep_lookup_ne now gen m n t0 _ he] at h1
        exact h1

theorem addTagStep_keys_nodup (now : String) (gen : Nat → String)
    (m : List (String × Tag)) (n : Nat) (t : String)
    (h : (m.map Prod.fst).Nodup) :
    ((addTagStep now gen (m, n) t).1.map Prod.fst).Nodup := by
  unfold addTagStep
  cases hl : tagLookup m (normalizeTag t) with
  | some tag =>
      simp only [hl]
      rw [tagModify_keys]
      exact h
  | none =>
      simp only [hl]
      rw [tagModify_keys, List.map_append]
      have hk : normalizeTag t ∉ m.map Prod.fst :=
        (tagLookup_eq_none_iff m _).mp hl
      rw [List.nodup_append]
      refine ⟨h, List.nodup_singleton _, fun a ha hb => ?_⟩
      have hab : a = normalizeTag t := by simpa using hb
      rw [hab] at ha
      exact hk ha

theorem addTagsFold_keys_nodup (now : String) (gen : Nat → String)
    (ts : List String) : ∀ (m : List (String × Tag)) (n : Nat),
    (m.map Prod.fst).Nodup →
      ((addTagsFold now gen ts m n).1.map Prod.fst).Nodup := by
  induction ts with
  | nil => intro m n h; exact h
  | cons t ts ih =>
      intro m n h
      exact ih (addTagStep now gen (m, n) t).1
        (addTagStep now gen (m, n) t).2
        (addTagStep_keys_nodup now gen m n t h)

theorem decTagStep_keys_nodup (m : List (String × Tag)) (t : String)
    (h : (m.map Prod.fst).Nodup) :
    ((decTagStep m t).map Prod.fst).Nodup := by
  unfold decTagStep
  cases hl : tagLookup m (normalizeTag t) with
  | none => simp only [hl]; exact h
  | some tag =>
      simp only [hl]
      split
      · exact ((tagErase_keys_sublist _ _).trans
          (by rw [tagModify_keys])).nodup h
      · rw [tagModify_keys]
        exact h

theorem decTagsFold_keys_nodup (ts : List String) :
    ∀ (m : List (String × Tag)), (m.map Prod.fst).Nodup →
      ((decTagsFold ts m).map Prod.fst).Nodup := by
  induction ts with
  | nil => intro m h; exact h
  | cons t ts ih =>
      intro m h
      exact ih (decTagStep m t) (decTagStep_keys_nodup m t h)

theorem isSome_of_map_count_eq_some (o : Option Tag) (x : Int)
    (h : o.map Tag.count = some x) : o.isSome = true := by
  cases o
  · cases h
  · rfl

theorem wf_addBookmark (d : StorageData) (draft : Draft) (bid : String)
    (gen : Nat → String) (now : String) (hwf : WF d)
    (hdel : draft.deleted = false)
    (hnd : (draft.tags.map normalizeTag).Nodup) :
    WF (addBookmark d draft bid gen now).1 := by
  obtain ⟨hcount, hcomp, hkeys, hlive⟩ := hwf
  have hkeys2 : (((addTagsFold now gen draft.tags d.tags 0).1).map
      Prod.fst).Nodup := addTagsFold_keys_nodup now gen draft.tags d.tags 0 hkeys
  have hlc : ∀ k, liveCount (addBookmark d draft bid gen now).1 k =
      liveCountL d.bookmarks k +
        (if k ∈ draft.tags.map normalizeTag then 1 else 0) := by
    intro k
    show liveCountL (d.bookmarks ++ [_]) k = _
    rw [liveCountL_append, liveCountL_cons]
    have h0 : liveCountL [] k = 0 := rfl
    rw [h0]
    by_cases hk : k ∈ draft.tags.map normalizeTag
    · rw [if_pos hk, if_pos ⟨hdel, hk⟩]
    · rw [if_neg hk, if_neg (fun hc => hk hc.2)]
  refine ⟨?_, ?_, hkeys2, ?_⟩
  · -- tagCountOk
    intro p hp
    have hlk : tagLookup (addTagsFold now gen draft.tags d.tags 0).1 p.1 =
        some p.2 := tagLookup_of_mem _ hkeys2 p hp
    by_cases hk : p.1 ∈ draft.tags.map normalizeTag
    · obtain ⟨t, ht, hteq⟩ := List.mem_map.mp hk
      have hm := addTagsFold_lookup_mem now gen draft.tags hnd t ht d.tags 0
      rw [hteq, hlk] at hm
      cases hl0 : tagLookup d.tags p.1 with
      | some tag =>
          have hc0 := hcount _ (tagLookup_mem _ _ _ hl0)
          rw [hl0] at hm
          simp only [Option.map_some', Option.getD_some,
            Option.some.injEq] at hm
          rw [hlc p.1, if_pos hk]
          show p.2.count = (liveCountL d.bookmarks p.1 + 1 : Nat)
          rw [hm, hc0]
          show (liveCountL d.bookmarks p.1 : Int) + 1 = _
          push_cast
          ring
      | none =>
          have h0 := liveCount_eq_zero_of_no_entry d hcomp p.1 hl0
          rw [hl0] at hm
          simp only [Option.map_some', Option.map_none', Option.getD_none,
            Option.some.injEq] at hm
          rw [hlc p.1, if_pos hk]
          have h1 : liveCountL d.bookmarks p.1 = 0 := h0
          rw [hm, h1]
          rfl
    · have hfr := addTagsFold_lookup_ne now gen draft.tags p.1 hk d.tags 0
      rw [hfr] at hlk
      have := hcount _ (tagLookup_mem _ _ _ hlk)
      rw [hlc p.1, if_neg hk]
      simpa using this
  · -- tagComplete
    intro b hb hbl t ht
    by_cases hk : normalizeTag t ∈ draft.tags.map normalizeTag
    · obtain ⟨t0, ht0, he⟩ := List.mem_map.mp hk
      have hm := addTagsFold_lookup_mem now gen draft.tags hnd t0 ht0 d.tags 0
      rw [he] at hm
      exact isSome_of_map_count_eq_some _ _ hm
    · have hfr := addTagsFold_lookup_ne now gen draft.tags _ hk d.tags 0
      show (tagLookup (addTagsFold now gen draft.tags d.tags 0).1
        (normalizeTag t)).isSome = true
      rw [hfr]
      rcases List.mem_append.mp hb with h0 | h0
      · exact hcomp b h0 hbl t ht
      · rw [List.mem_singleton.mp h0] at ht
        exact absurd (List.mem_map.mpr ⟨t, ht, rfl⟩) hk
  · -- liveTagsNodup
    intro b hb hbl
    rcases List.mem_append.mp hb with h0 | h0
    · exact hlive b h0 hbl
    · rw [List.mem_singleton.mp h0]
      exact hnd

theorem distinctB_iff (l : List String) : distinctB l = true ↔ l.Nodup := by
  induction l with
  | nil => simp [distinctB]
  | cons x xs ih =>
      unfold distinctB
      rw [Bool.and_eq_true, List.nodup_cons, ← ih]
      constructor
      · rintro ⟨h1, h2⟩
        refine ⟨fun hm => ?_, h2⟩
        have hc : xs.contains x = true := List.elem_iff.mpr hm
        rw [hc] at h1
        cases h1
      · rintro ⟨h1, h2⟩
        refine ⟨?_, h2⟩
        cases hc : xs.contains x
        · rfl
        · exact absurd (List.elem_iff.mp hc) h1

theorem liveCountL_pos (bs : List Bookmark) (b : Bookmark) (k : String)
    (hb : b ∈ bs) (hlive : b.deleted = false) (hmem : k ∈ normKeys b) :
    1 ≤ liveCountL bs k := by
  unfold liveCountL
  exact List.length_pos_of_mem (List.mem_filter.mpr ⟨hb, by
    simp only [Bool.and_eq_true, Bool.not_eq_true']
    exact ⟨hlive, List.elem_iff.mpr hmem⟩⟩)

theorem wf_deleteBookmark (d : StorageData) (id now : String) (hwf : WF d)
    (hsafe : safeOpB d (Op.del id now) = true) :
    WF (applyOp d (Op.del id now)) := by
  obtain ⟨hcount, hcomp, hkeys, hlive⟩ := hwf
  simp only [applyOp]
  cases hdel : deleteBookmark d id now with
  | error e => exact ⟨hcount, hcomp, hkeys, hlive⟩
  | ok d2 =>
      show WF d2
      unfold deleteBookmark at hdel
      cases hrep : replaceFirst (fun c => c.id == id)
          (fun c => { c with deleted := true, deletedAt := some now })
          d.bookmarks with
      | none => rw [hrep] at hdel; cases hdel
      | some q =>
          obtain ⟨b, bk2⟩ := q
          rw [hrep] at hdel
          simp only [Except.ok.injEq] at hdel
          subst hdel
          obtain ⟨pre, post, hsplit, hbk2, hprefail⟩ :=
            replaceFirst_split _ _ _ _ hrep
          dsimp only at hsplit hbk2
          subst hbk2
          have hfind := replaceFirst_find? _ _ _ _ hrep
          dsimp only at hfind
          have hbdel : b.deleted = false := by
            simp only [safeOpB] at hsafe
            rw [hfind] at hsafe
            simpa using hsafe
          have hbmem : b ∈ d.bookmarks := by
            rw [hsplit]
            exact List.mem_append.mpr (Or.inr (List.mem_cons_self _ _))
          have hbnd : (normKeys b).Nodup := hlive b hbmem hbdel
          have hkeys2 : ((decTagsFold b.tags d.tags).map Prod.fst).Nodup :=
            decTagsFold_keys_nodup b.tags d.tags hkeys
          have hlcd : ∀ k, liveCount d k =
              liveCountL pre k + liveCountL post k +
                (if k ∈ normKeys b then 1 else 0) := by
            intro k
            show liveCountL d.bookmarks k = _
            rw [hsplit, liveCountL_append, liveCountL_cons]
            by_cases hk : k ∈ normKeys b
            · rw [if_pos ⟨hbdel, hk⟩, if_pos hk]
              omega
            · rw [if_neg (fun hc => hk hc.2), if_neg hk]
              omega
          have hlcd2 : ∀ k,
              liveCountL (pre ++
                ({ b with deleted := true, deletedAt := some now } :: post))
                k = liveCountL pre k + liveCountL post k := by
            intro k
            rw [liveCountL_append, liveCountL_cons]
            rw [if_neg (fun hc => by
              have hcc : (true : Bool) = false := hc.1
              cases hcc)]
            omega
          refine ⟨?_, ?_, hkeys2, ?_⟩
          · -- tagCountOk
            intro p hp
            have hlk : tagLookup (decTagsFold b.tags d.tags) p.1 = some p.2 :=
              tagLookup_of_mem _ hkeys2 p hp
            by_cases hk : p.1 ∈ normKeys b
            · obtain ⟨t, ht, hteq⟩ := List.mem_map.mp hk
              have hm := decTagsFold_lookup_mem b.tags hbnd t ht d.tags
              rw [hteq, hlk] at hm
              cases hl0 : tagLookup d.tags p.1 with
              | none => rw [hl0] at hm; cases hm
              | some tag =>
                  rw [hl0] at hm
                  unfold decOne at hm
                  dsimp only at hm
                  by_cases hle : tag.count - 1 ≤ 0
                  · rw [if_pos hle] at hm
                    cases hm
                  · rw [if_neg hle] at hm
                    have hm2 := Option.some.inj hm
                    have hc0 : tag.count = (liveCount d p.1 : Int) :=
                      hcount _ (tagLookup_mem _ _ _ hl0)
                    have hcnt : p.2.count = tag.count - 1 := by rw [hm2]
                    show p.2.count = (liveCountL _ p.1 : Nat)
                    rw [hlcd2 p.1, hcnt, hc0, hlcd p.1, if_pos hk]
                    push_cast
                    ring
            · have hfr := decTagsFold_lookup_ne b.tags p.1 hk d.tags
              rw [hfr] at hlk
              have hc0 : p.2.count = (liveCount d p.1 : Int) :=
                hcount _ (tagLookup_mem _ _ _ hlk)
              show p.2.count = (liveCountL _ p.1 : Nat)
              rw [hlcd2 p.1, hc0, hlcd p.1, if_neg hk]
              push_cast
              ring
          · -- tagComplete
            intro b2 hb2 hbl2 t ht
            have hb2pp : b2 ∈ pre ∨ b2 ∈ post := by
              rcases List.mem_append.mp hb2 with h0 | h0
              · exact Or.inl h0
              · rcases List.mem_cons.mp h0 with h1 | h1
                · rw [h1] at hbl2; cases hbl2
                · exact Or.inr h1
            have hb2d : b2 ∈ d.bookmarks := by
              rw [hsplit]
              rcases hb2pp with h0 | h0
              · exact List.mem_append.mpr (Or.inl h0)
              · exact List.mem_append.mpr
                  (Or.inr (List.mem_cons_of_mem _ h0))
            show (tagLookup (decTagsFold b.tags d.tags)
              (normalizeTag t)).isSome = true
            by_cases hk : normalizeTag t ∈ normKeys b
            · obtain ⟨t0, ht0, hteq⟩ := List.mem_map.mp hk
              have hm := decTagsFold_lookup_mem b.tags hbnd t0 ht0 d.tags
              rw [hteq] at hm
              rw [hm]
              have hsm := hcomp b2 hb2d hbl2 t ht
              cases hl0 : tagLookup d.tags (normalizeTag t) with
              | none => rw [hl0] at hsm; cases hsm
              | some tag =>
                  have hc0 : tag.count =
                      (liveCount d (normalizeTag t) : Int) :=
                    hcount _ (tagLookup_mem _ _ _ hl0)
                  have hbase : 1 ≤ liveCountL pre (normalizeTag t) +
                      liveCountL post (normalizeTag t) := by
                    have hm2 : normalizeTag t ∈ normKeys b2 :=
                      List.mem_map.mpr ⟨t, ht, rfl⟩
                    rcases hb2pp with h0 | h0
                    · have := liveCountL_pos pre b2 _ h0 hbl2 hm2
                      omega
                    · have := liveCountL_pos post b2 _ h0 hbl2 hm2
                      omega
                  rw [hlcd _, if_pos hk] at hc0
                  unfold decOne
                  dsimp only
                  split
                  · next hle =>
                      exfalso
                      rw [hc0] at hle
                      push_cast at hle
                      omega
                  · rfl
            · have hfr := decTagsFold_lookup_ne b.tags _ hk d.tags
              rw [hfr]
              exact hcomp b2 hb2d hbl2 t ht
          · -- liveTagsNodup
            intro b2 hb2 hbl2
            rcases List.mem_append.mp hb2 with h0 | h0
            · exact hlive b2 (by
                rw [hsplit]
                exact List.mem_append.mpr (Or.inl h0)) hbl2
            · rcases List.mem_cons.mp h0 with h1 | h1
              · rw [h1] at hbl2; cases hbl2
              · exact hlive b2 (by
                  rw [hsplit]
                  exact List.mem_append.mpr
                    (Or.inr (List.mem_cons_of_mem _ h1))) hbl2

theorem wf_updateBookmark (d : StorageData) (id : String) (u : BookmarkUpdate)
    (gen : Nat → String) (now : String) (hwf : WF d)
    (hsafe : safeOpB d (Op.upd id u gen now) = true) :
    WF (applyOp d (Op.upd id u gen now)) := by
  obtain ⟨hcount, hcomp, hkeys, hlive⟩ := hwf
  simp only [applyOp]
  cases hupd : updateBookmark d id u gen now with
  | error e => exact ⟨hcount, hcomp, hkeys, hlive⟩
  | ok d2 =>
      show WF d2
      unfold updateBookmark at hupd
      cases hrep : replaceFirst (fun b => b.id == id)
          (fun b => mergeUpdate b u now) d.bookmarks with
      | none => rw [hrep] at hupd; cases hupd
      | some q =>
          obtain ⟨old, bk2⟩ := q
          rw [hrep] at hupd
          simp only [Except.ok.injEq] at hupd
          subst hupd
          obtain ⟨pre, post, hsplit, hbk2, hprefail⟩ :=
            replaceFirst_split _ _ _ _ hrep
          dsimp only at hsplit hbk2
          subst hbk2
          have hfind := replaceFirst_find? _ _ _ _ hrep
          dsimp only at hfind
          simp only [safeOpB] at hsafe
          rw [hfind] at hsafe
          simp only [Bool.and_eq_true, Bool.not_eq_true'] at hsafe
          have holddel : old.deleted = false := hsafe.1.1
          have hudel : u.deleted ≠ some true := by
            have h2 := hsafe.1.2
            intro he
            rw [he] at h2
            simp at h2
          have hmdel : (mergeUpdate old u now).deleted = false := by
            unfold mergeUpdate
            cases hud : u.deleted with
            | none => simpa using holddel
            | some bb =>
                cases bb
                · rfl
                · exact absurd hud hudel
          have holdmem : old ∈ d.bookmarks := by
            rw [hsplit]
            exact List.mem_append.mpr (Or.inr (List.mem_cons_self _ _))
          have hondd : (normKeys old).Nodup := hlive old holdmem holddel
          cases hut : u.tags with
          | none =>
              have hmtags : (mergeUpdate old u now).tags = old.tags := by
                unfold mergeUpdate
                rw [hut]
                rfl
              have hlc : ∀ k,
                  liveCountL (pre ++ mergeUpdate old u now :: post) k =
                    liveCount d k := by
                intro k
                show _ = liveCountL d.bookmarks k
                rw [hsplit, liveCountL_append, liveCountL_append,
                  liveCountL_cons, liveCountL_cons]
                have hck : normKeys (mergeUpdate old u now) = normKeys old := by
                  unfold normKeys
                  rw [hmtags]
                rw [hck, hmdel, holddel]
              refine ⟨?_, ?_, hkeys, ?_⟩
              · intro p hp
                have := hcount p hp
                show p.2.count = (liveCountL _ p.1 : Nat)
                rw [hlc p.1]
                exact this
              · intro b2 hb2 hbl2 t ht
                show (tagLookup d.tags (normalizeTag t)).isSome = true
                rcases List.mem_append.mp hb2 with h0 | h0
                · exact hcomp b2 (by
                    rw [hsplit]
                    exact List.mem_append.mpr (Or.inl h0)) hbl2 t ht
                · rcases List.mem_cons.mp h0 with h1 | h1
                  · rw [h1] at ht
                    rw [hmtags] at ht
                    exact hcomp old holdmem holddel t ht
                  · exact hcomp b2 (by
                      rw [hsplit]
                      exact List.mem_append.mpr
                        (Or.inr (List.mem_cons_of_mem _ h1))) hbl2 t ht
              · intro b2 hb2 hbl2
                rcases List.mem_append.mp hb2 with h0 | h0
                · exact hlive b2 (by
                    rw [hsplit]
                    exact List.mem_append.mpr (Or.inl h0)) hbl2
                · rcases List.mem_cons.mp h0 with h1 | h1
                  · rw [h1]
                    show (normKeys (mergeUpdate old u now)).Nodup
                    unfold normKeys
                    rw [hmtags]
                    exact hondd
                  · exact hlive b2 (by
                      rw [hsplit]
                      exact List.mem_append.mpr
                        (Or.inr (List.mem_cons_of_mem _ h1))) hbl2
          | some nts =>
              have hnnd : (nts.map normalizeTag).Nodup := by
                have h3 := hsafe.2
                rw [hut] at h3
                exact (distinctB_iff _).mp h3
              have hmtags : (mergeUpdate old u now).tags = nts := by
                unfold mergeUpdate
                rw [hut]
                rfl
              have hkeys1 : ((decTagsFold old.tags d.tags).map Prod.fst).Nodup :=
                decTagsFold_keys_nodup old.tags d.tags hkeys
              have hkeys2 : (((addTagsFold now gen nts
                  (decTagsFold old.tags d.tags) 0).1).map Prod.fst).Nodup :=
                addTagsFold_keys_nodup now gen nts _ 0 hkeys1
              have hlcd : ∀ k, liveCount d k =
                  liveCountL pre k + liveCountL post k +
                    (if k ∈ normKeys old then 1 else 0) := by
                intro k
                show liveCountL d.bookmarks k = _
                rw [hsplit, liveCountL_append, liveCountL_cons]
                by_cases hk : k ∈ normKeys old
                · rw [if_pos ⟨holddel, hk⟩, if_pos hk]
                  omega
                · rw [if_neg (fun hc => hk hc.2), if_neg hk]
                  omega
              have hlcd2 : ∀ k,
                  liveCountL (pre ++ mergeUpdate old u now :: post) k =
                    liveCountL pre k + liveCountL post k +
                      (if k ∈ nts.map normalizeTag then 1 else 0) := by
                intro k
                rw [liveCountL_append, liveCountL_cons]
                have hck : normKeys (mergeUpdate old u now) =
                    nts.map normalizeTag := by
                  unfold normKeys
                  rw [hmtags]
                by_cases hk : k ∈ nts.map normalizeTag
                · rw [if_pos ⟨hmdel, by rw [hck]; exact hk⟩, if_pos hk]
                  omega
                · rw [if_neg (fun hc => hk (by rw [← hck]; exact hc.2)),
                    if_neg hk]
                  omega
              have hm1mem : ∀ k, k ∈ normKeys old →
                  tagLookup (decTagsFold old.tags d.tags) k =
                    decOne (tagLookup d.tags k) := by
                intro k hk
                obtain ⟨t, ht, hteq⟩ := List.mem_map.mp hk
                have := decTagsFold_lookup_mem old.tags hondd t ht d.tags
                rw [hteq] at this
                exact this
              have hm1ne : ∀ k, k ∉ normKeys old →
                  tagLookup (decTagsFold old.tags d.tags) k =
                    tagLookup d.tags k := fun k hk =>
                decTagsFold_lookup_ne old.tags k hk d.tags
              refine ⟨?_, ?_, hkeys2, ?_⟩
              · -- tagCountOk
                intro p hp
                have hlk : tagLookup (addTagsFold now gen nts
                    (decTagsFold old.tags d.tags) 0).1 p.1 = some p.2 :=
                  tagLookup_of_mem _ hkeys2 p hp
                show p.2.count = (liveCountL _ p.1 : Nat)
                rw [hlcd2 p.1]
                by_cases hkN : p.1 ∈ nts.map normalizeTag
                · rw [if_pos hkN]
                  obtain ⟨t, ht, hteq⟩ := List.mem_map.mp hkN
                  have hm := addTagsFold_lookup_mem now gen nts hnnd t ht
                    (decTagsFold old.tags d.tags) 0
                  rw [hteq, hlk] at hm
                  simp only [Option.map_some', Option.some.injEq] at hm
                  by_cases hkO : p.1 ∈ normKeys old
                  · have hdec := hm1mem p.1 hkO
                    have hsm := hcomp old holdmem holddel
                    obtain ⟨t0, ht0, hteq0⟩ := List.mem_map.mp hkO
                    have hsm2 := hsm t0 ht0
                    rw [hteq0] at hsm2
                    cases hl0 : tagLookup d.tags p.1 with
                    | none => rw [hl0] at hsm2; cases hsm2
                    | some tag =>
                        have hc0 : tag.count = (liveCount d p.1 : Int) :=
                          hcount _ (tagLookup_mem _ _ _ hl0)
                        rw [hlcd p.1, if_pos hkO] at hc0
                        rw [hl0] at hdec
                        unfold decOne at hdec
                        dsimp only at hdec
                        by_cases hle : tag.count - 1 ≤ 0
                        · rw [if_pos hle] at hdec
                          rw [hdec] at hm
                          simp only [Option.map_none', Option.getD_none] at hm
                          rw [hm]
                          have : liveCountL pre p.1 + liveCountL post p.1 = 0 := by
                            rw [hc0] at hle
                            push_cast at hle
                            omega
                          rw [this]
                          rfl
                        · rw [if_neg hle] at hdec
                          rw [hdec] at hm
                          simp only [Option.map_some', Option.getD_some] at hm
                          rw [hm, hc0]
                          push_cast
                          ring
                  · have hfr := hm1ne p.1 hkO
                    cases hl0 : tagLookup d.tags p.1 with
                    | none =>
                        have h0 := liveCount_eq_zero_of_no_entry d hcomp p.1 hl0
                        rw [hlcd p.1, if_neg hkO] at h0
                        rw [hl0] at hfr
                        rw [hfr] at hm
                        simp only [Option.map_none', Option.getD_none] at hm
                        rw [hm]
                        have : liveCountL pre p.1 + liveCountL post p.1 = 0 := by
                          omega
                        rw [this]
                        rfl
                    | some tag =>
                        have hc0 : tag.count = (liveCount d p.1 : Int) :=
                          hcount _ (tagLookup_mem _ _ _ hl0)
                        rw [hlcd p.1, if_neg hkO] at hc0
                        rw [hl0] at hfr
                        rw [hfr] at hm
                        simp only [Option.map_some', Option.getD_some] at hm
                        rw [hm, hc0]
                        push_cast
                        ring
                · rw [if_neg hkN]
                  have hfr := addTagsFold_lookup_ne now gen nts p.1 hkN
                    (decTagsFold old.tags d.tags) 0
                  rw [hfr] at hlk
                  by_cases hkO : p.1 ∈ normKeys old
                  · have hdec := hm1mem p.1 hkO
                    rw [hlk] at hdec
                    cases hl0 : tagLookup d.tags p.1 with
                    | none => rw [hl0] at hdec; cases hdec
                    | some tag =>
                        have hc0 : tag.count = (liveCount d p.1 : Int) :=
                          hcount _ (tagLookup_mem _ _ _ hl0)
                        rw [hlcd p.1, if_pos hkO] at hc0
                        rw [hl0] at hdec
                        unfold decOne at hdec
                        dsimp only at hdec
                        by_cases hle : tag.count - 1 ≤ 0
                        · rw [if_pos hle] at hdec
                          cases hdec
                        · rw [if_neg hle] at hdec
                          have hm2 := Option.some.inj hdec.symm
                          have hcnt : p.2.count = tag.count - 1 := by
                            rw [← hm2]
                          rw [hcnt, hc0]
                          push_cast
                          ring
                  · have hfr2 := hm1ne p.1 hkO
                    rw [hfr2] at hlk
                    have hc0 : p.2.count = (liveCount d p.1 : Int) :=
                      hcount _ (tagLookup_mem _ _ _ hlk)
                    rw [hlcd p.1, if_neg hkO] at hc0
                    rw [hc0]
              · -- tagComplete
                intro b2 hb2 hbl2 t ht
                show (tagLookup (addTagsFold now gen nts
                  (decTagsFold old.tags d.tags) 0).1
                  (normalizeTag t)).isSome = true
                by_cases hkN : normalizeTag t ∈ nts.map normalizeTag
                · obtain ⟨t0, ht0, hteq⟩ := List.mem_map.mp hkN
                  have hm := addTagsFold_lookup_mem now gen nts hnnd t0 ht0
                    (decTagsFold old.tags d.tags) 0
                  rw [hteq] at hm
                  exact isSome_of_map_count_eq_some _ _ hm
                · have hb2pp : b2 ∈ pre ∨ b2 ∈ post := by
                    rcases List.mem_append.mp hb2 with h0 | h0
                    · exact Or.inl h0
                    · rcases List.mem_cons.mp h0 with h1 | h1
                      · exfalso
                        rw [h1] at ht
                        rw [hmtags] at ht
                        exact hkN (List.mem_map.mpr ⟨t, ht, rfl⟩)
                      · exact Or.inr h1
                  have hb2d : b2 ∈ d.bookmarks := by
                    rw [hsplit]
                    rcases hb2pp with h0 | h0
                    · exact List.mem_append.mpr (Or.inl h0)
                    · exact List.mem_append.mpr
                        (Or.inr (List.mem_cons_of_mem _ h0))
                  have hfr := addTagsFold_lookup_ne now gen nts _ hkN
                    (decTagsFold old.tags d.tags) 0
                  rw [hfr]
                  have hsm := hcomp b2 hb2d hbl2 t ht
                  by_cases hkO : normalizeTag t ∈ normKeys old
                  · rw [hm1mem _ hkO]
                    cases hl0 : tagLookup d.tags (normalizeTag t) with
                    | none => rw [hl0] at hsm; cases hsm
                    | some tag =>
                        have hc0 : tag.count =
                            (liveCount d (normalizeTag t) : Int) :=
                          hcount _ (tagLookup_mem _ _ _ hl0)
                        rw [hlcd _, if_pos hkO] at hc0
                        have hbase : 1 ≤ liveCountL pre (normalizeTag t) +
                            liveCountL post (normalizeTag t) := by
                          have hm2 : normalizeTag t ∈ normKeys b2 :=
                            List.mem_map.mpr ⟨t, ht, rfl⟩
                          rcases hb2pp with h0 | h0
                          · have := liveCountL_pos pre b2 _ h0 hbl2 hm2
                            omega
                          · have := liveCountL_pos post b2 _ h0 hbl2 hm2
                            omega
                        unfold decOne
                        dsimp only
                        split
                        · next hle =>
                            exfalso
                            rw [hc0] at hle
                            push_cast at hle
                            omega
                        · rfl
                  · rw [hm1ne _ hkO]
                    exact hsm
              · -- liveTagsNodup
                intro b2 hb2 hbl2
                rcases List.mem_append.mp hb2 with h0 | h0
                · exact hlive b2 (by
                    rw [hsplit]
                    exact List.mem_append.mpr (Or.inl h0)) hbl2
                · rcases List.mem_cons.mp h0 with h1 | h1
                  · rw [h1]
                    show (normKeys (mergeUpdate old u now)).Nodup
                    unfold normKeys
                    rw [hmtags]
                    exact hnnd
                  · exact hlive b2 (by
                      rw [hsplit]
                      exact List.mem_append.mpr
                        (Or.inr (List.mem_cons_of_mem _ h1))) hbl2

theorem wf_step (d : StorageData) (op : Op) (hwf : WF d)
    (hsafe : safeOpB d op = true) : WF (applyOp d op) := by
  cases op with
  | add draft bid gen now =>
      simp only [safeOpB, Bool.and_eq_true, Bool.not_eq_true'] at hsafe
      exact wf_addBookmark d draft bid gen now hwf hsafe.1
        ((distinctB_iff _).mp hsafe.2)
  | upd id u gen now => exact wf_updateBookmark d id u gen now hwf hsafe
  | del id now => exact wf_deleteBookmark d id now hwf hsafe

/-- Claim C1 as amended: starting from a well-formed Document (counts
correct, every live bookmark's normalized tag present in the index,
distinct index keys, live tag lists normalized-distinct), after any
sequence of `addBookmark` / `updateBookmark` / `deleteBookmark` operations
in which no `addBookmark` draft carries the soft-delete flag (the draft is
spread whole into the new record, so a dead draft would still bump its tag
counts), every draft and every tag-list update normalizes to pairwise
distinct keys, `updateBookmark` never sets the soft-delete flag and only
targets live records, and `deleteBookmark` only targets live records,
every tag entry's count equals the number of non-soft-deleted bookmarks
whose normalized tag list contains its key. Without those side conditions
the claim fails — see `tag_count_counterexample`. -/
theorem tag_count_invariant (d : StorageData) (ops : List Op) (hwf : WF d)
    (hsafe : safeSeqB d ops = true) : tagCountOk (applyOps d ops) := by
  induction ops generalizing d with
  | nil => exact hwf.1
  | cons op ops ih =>
      unfold safeSeqB at hsafe
      rw [Bool.and_eq_true] at hsafe
      exact ih (applyOp d op) (wf_step d op hwf hsafe.1) hsafe.2

/-- The empty, trivially well-formed Document. -/
def c1Doc : StorageData :=
  { bookmarks := [], tags := [], settings := defaultSettings }

/-- An `addBookmark` whose draft carries two spellings of one tag. -/
def c1BadOps : List Op :=
  [Op.add { url := "u", title := "t", note := "", tags := ["A", "a"] }
    "b1" (fun _ => "g") "T1"]

/-- Claim C1, counterexample: from the well-formed empty Document, a single
`addBookmark` whose draft lists the tags `["A", "a"]` (two spellings of one
normalized key) leaves the tag `"a"` with count 2 while only one live
bookmark carries it — the invariant does not hold after arbitrary
operation sequences. -/
theorem tag_count_counterexample :
    WF c1Doc ∧ ¬ tagCountOk (applyOps c1Doc c1BadOps) := by
  constructor
  · exact ⟨by decide, by decide, by decide, by decide⟩
  · decide

/-- A safe operation sequence for the C1 witness: one add and one delete
with distinct normalized tags, targeting a live record. -/
def c1GoodOps : List Op :=
  [Op.add { url := "u", title := "t", note := "", tags := ["Work", "news"] }
    "b1" (fun n => "g" ++ toString n) "T1",
   Op.del "b1" "T2"]

/-- Witness for `tag_count_invariant` on a concrete safe sequence. -/
theorem tag_count_invariant_witness :
    (WF c1Doc ∧ safeSeqB c1Doc c1GoodOps = true) ∧
    tagCountOk (applyOps c1Doc c1GoodOps) :=
  ⟨⟨⟨by decide, by decide, by decide, by decide⟩, by decide⟩,
    tag_count_invariant c1Doc c1GoodOps
      ⟨by decide, by decide, by decide, by decide⟩ (by decide)⟩
